import Mathlib


/-!
Verification of the tick-ingestion / bar-storage core of the forex backtest
repository.

The Python sources are shallowly embedded:

* `src/forex_bt/storage/parquet_store.py` — the partitioned bar store
  (`parquet_upsert`, `parquet_load_range`, `parquet_get_last_timestamp`).
  Pandas dataframes of bars become `List BarRow`; a partition directory tree
  becomes an association list from `(year, month)` keys to row lists.
  A UTC instant is represented by its calendar month `(year, month)` together
  with an integer offset inside that month (`DT`); instants compare
  lexicographically, and `year`/`month` extraction — the only calendar
  operation the store performs — is a projection.
* `src/forex_bt/ticks.py` — the binary tick decoder and the 1-minute
  aggregator.  Timestamps on this side are plain integer milliseconds since
  the epoch; machine floats (`f64` arithmetic on prices and volumes) are
  modelled as exact rationals, and the IEEE-754 `>f4` fields are decoded
  bit-exactly into `ℚ`.
* `src/forex_bt/ohlcv.py` — `resample_from_1m`.
* `src/dukascopy-data-manager.py` — the export path's record decoder and
  `aggregate_data` (tick-count branch).

Pandas `sort_values` / `sort_index` are modelled by an insertion sort; the
source's sort is an unstable quicksort, so no theorem below relies on the
relative order of rows with equal timestamps.
-/

/-! ## Generic list machinery: insertion sort (kernel-computable) -/

/-- Insert `x` into `l` in front of the first element `y` with `le x y`. -/
def insertLe {α : Type} (le : α → α → Bool) (x : α) : List α → List α
  | [] => [x]
  | y :: ys => if le x y then x :: y :: ys else y :: insertLe le x ys

/-- Insertion sort by the boolean relation `le`.  Models pandas
`sort_values`/`sort_index`; stability is never relied upon. -/
def insSort {α : Type} (le : α → α → Bool) : List α → List α
  | [] => []
  | x :: xs => insertLe le x (insSort le xs)

/-! ## Calendar model

The store's only calendar operations are: extracting `(year, month)` from a
timestamp (`dt.year`, `dt.month` / partition directory names), comparing
timestamps, flooring a timestamp to the start of its month
(`replace(day=1, hour=0, ...)`), and stepping to the next month begin
(`pd.offsets.MonthBegin`).  A UTC instant is therefore represented by its
calendar month together with an integer offset within that month; instants
are ordered lexicographically, which agrees with chronological order. -/

/-- A calendar month `(year, month)`, `month ∈ [1, 12]` for real dates. -/
abbrev YM : Type := Int × Int

/-- Strict chronological (= lexicographic) order on months. -/
def ymLt (a b : YM) : Prop := a.1 < b.1 ∨ (a.1 = b.1 ∧ a.2 < b.2)

/-- Chronological order on months, non-strict. -/
def ymLe (a b : YM) : Prop := a.1 < b.1 ∨ (a.1 = b.1 ∧ a.2 ≤ b.2)

instance (a b : YM) : Decidable (ymLt a b) :=
  inferInstanceAs (Decidable (_ ∨ _))

instance (a b : YM) : Decidable (ymLe a b) :=
  inferInstanceAs (Decidable (_ ∨ _))

/-- A UTC instant: its calendar month plus an offset within the month
(e.g. milliseconds since the month began; only `0 ≤ sub` is ever used). -/
structure DT where
  ym : YM
  sub : Int
deriving DecidableEq, Repr

/-- Strict chronological order on instants (lexicographic). -/
def dtLt (a b : DT) : Prop := ymLt a.ym b.ym ∨ (a.ym = b.ym ∧ a.sub < b.sub)

/-- Chronological order on instants, non-strict. -/
def dtLe (a b : DT) : Prop := ymLt a.ym b.ym ∨ (a.ym = b.ym ∧ a.sub ≤ b.sub)

instance (a b : DT) : Decidable (dtLt a b) :=
  inferInstanceAs (Decidable (_ ∨ _))

instance (a b : DT) : Decidable (dtLe a b) :=
  inferInstanceAs (Decidable (_ ∨ _))

/-- A real calendar date: month between 1 and 12, nonnegative offset. -/
def validDT (t : DT) : Prop := 1 ≤ t.ym.2 ∧ t.ym.2 ≤ 12 ∧ 0 ≤ t.sub

/-- A real calendar month. -/
def validYM (k : YM) : Prop := 1 ≤ k.2 ∧ k.2 ≤ 12

instance (t : DT) : Decidable (validDT t) := by
  unfold validDT
  infer_instance

instance (k : YM) : Decidable (validYM k) := by
  unfold validYM
  infer_instance

/-- Linearized month index, used to reason about month enumeration. -/
def monthIdx (k : YM) : Int := 12 * k.1 + (k.2 - 1)

/-! ## Bar rows and dataframe operations (parquet_store.py) -/

/-- One row of a bar dataframe / partition file: columns
`[datetime, Open, High, Low, Close, Volume]` (`PARQUET_COLUMNS`). -/
structure BarRow where
  dt : DT
  opn : ℚ
  high : ℚ
  low : ℚ
  close : ℚ
  volume : ℚ
deriving DecidableEq, Repr

/-- `datetime`-key comparison used by `sort_values("datetime")`. -/
def rowLeB (a b : BarRow) : Bool := decide (dtLe a.dt b.dt)

/-- Models `df.sort_values("datetime")`. -/
def sortByDt (l : List BarRow) : List BarRow := insSort rowLeB l

/-- Models `df["datetime"].is_monotonic_increasing` (non-decreasing). -/
def isMonotonicByDt : List BarRow → Bool
  | [] => true
  | [_] => true
  | a :: b :: t => decide (dtLe a.dt b.dt) && isMonotonicByDt (b :: t)

/-- Models `_normalize_columns`: select the bar columns and sort by
`datetime` unless the column is already monotonic.  Column presence /
dtype normalization are identities on typed rows. -/
def normalizeColumns (l : List BarRow) : List BarRow :=
  if isMonotonicByDt l then l else sortByDt l

/-- Models `df.drop_duplicates(subset=["datetime"], keep="last")`:
a row is kept iff no later row carries the same `datetime`; kept rows
stay in their original relative order. -/
def dedupKeepLast : List BarRow → List BarRow
  | [] => []
  | x :: xs =>
    if xs.any (fun y => decide (y.dt = x.dt)) then dedupKeepLast xs
    else x :: dedupKeepLast xs

/-! ## The partitioned bar store (parquet_store.py)

A store state for one fixed `(asset, tf)` key: the existing partition
files, as an association list from `(year, month)` — the
`year=YYYY/month=MM` directory pair of `parquet_partition_path` — to the
row list stored in that partition's `bars.parquet`.  Directory names are
zero-padded, so lexicographic directory order equals numeric order. -/

/-- Store state: existing partitions for one `(asset, tf)` key. -/
abbrev BarStore : Type := List (YM × List BarRow)

/-- Read the partition file for month `k`; `none` = file absent. -/
def lookupPart : BarStore → YM → Option (List BarRow)
  | [], _ => none
  | (k, v) :: s, key => if k = key then some v else lookupPart s key

/-- (Over)write the partition file for month `k` (`to_parquet`). -/
def storeSet : BarStore → YM → List BarRow → BarStore
  | [], key, v => [(key, v)]
  | (k, w) :: s, key, v =>
    if k = key then (key, v) :: s else (k, w) :: storeSet s key v

/-- Insert a month key into an ascending, duplicate-free key list. -/
def insertKey (k : YM) : List YM → List YM
  | [] => [k]
  | k' :: t =>
    if k = k' then k' :: t
    else if ymLt k k' then k :: k' :: t
    else k' :: insertKey k t

/-- The sorted, distinct `(year, month)` group keys of a dataframe:
models the iteration order of
`df_new.groupby([dt.year, dt.month])` (pandas sorts group keys). -/
def groupKeys (l : List BarRow) : List YM :=
  (l.map (fun r => r.dt.ym)).foldl (fun ks k => insertKey k ks) []

/-- Models `parquet_upsert` (parquet_store.py, lines 80-104): normalize
and sort the incoming dataframe, group it by the `(year, month)` of each
row, and for each group rewrite the whole partition with
`concat(existing, new) |> drop_duplicates(keep="last") |> sort`, or with
the group itself when no partition file exists.  Returns the new store
and `total_written`. -/
def parquet_upsert (s : BarStore) (dfNew : List BarRow) : BarStore × Nat :=
  let dfn := normalizeColumns dfNew
  (groupKeys dfn).foldl
    (fun acc k =>
      let dfPart := dfn.filter (fun r => decide (r.dt.ym = k))
      let combined :=
        match lookupPart acc.1 k with
        | some existing => sortByDt (dedupKeepLast (existing ++ dfPart))
        | none => dfPart
      (storeSet acc.1 k combined, acc.2 + combined.length))
    (s, 0)

/-- `cur + pd.offsets.MonthBegin()` applied to a month begin: the next
month's begin. -/
def succYM (k : YM) : YM :=
  if k.2 ≥ 12 then (k.1 + 1, 1) else (k.1, k.2 + 1)

/-- The candidate-month `while` loop of `parquet_load_range`
(lines 132-141): append the current month; stop once the next month
begin exceeds `end` (when given) or once more than 2400 months were
collected (when `end` is absent).  `fuel` only bounds the recursion and
is chosen large enough to never run out. -/
def monthsLoop : Nat → YM → Option DT → List YM → List YM
  | 0, _, _, acc => acc.reverse
  | fuel + 1, cur, endOpt, acc =>
    let acc' := cur :: acc
    let nextM := succYM cur
    match endOpt with
    | some e =>
      if dtLt e ⟨nextM, 0⟩ then acc'.reverse
      else monthsLoop fuel nextM endOpt acc'
    | none =>
      if acc'.length > 2400 then acc'.reverse
      else monthsLoop fuel nextM endOpt acc'

/-- Fuel sufficient for `monthsLoop` to hit its stop condition. -/
def monthsFuel (startYM : YM) (endOpt : Option DT) : Nat :=
  match endOpt with
  | some e => (monthIdx e.ym - monthIdx startYM + 1).toNat + 1
  | none => 2401

/-- The sorted list of existing partition months, as enumerated by the
sorted `year=*` / `month=*` directory listing of `parquet_load_range`'s
else-branch (zero-padded names sort numerically). -/
def existingKeys (s : BarStore) : List YM :=
  (s.map Prod.fst).foldl (fun ks k => insertKey k ks) []

/-- Error raised by `parquet_load_range`. -/
inductive LoadErr where
  | rangeError
deriving DecidableEq, Repr

/-- Models `parquet_load_range` (parquet_store.py, lines 107-168):
raise `ValueError` if both bounds are given and `start > end`; enumerate
candidate months (from `start`'s month begin, or from the directory
listing when `start` is absent); read and concatenate the existing
candidate partitions; filter to `[start, end]` inclusive; sort by
timestamp; drop duplicate timestamps keeping the last. -/
def parquet_load_range (s : BarStore) (startOpt endOpt : Option DT) :
    Except LoadErr (List BarRow) :=
  let bad :=
    match startOpt, endOpt with
    | some st, some en => decide (dtLt en st)
    | _, _ => false
  if bad then .error .rangeError
  else
    let months :=
      match startOpt with
      | some st => monthsLoop (monthsFuel st.ym endOpt) st.ym endOpt []
      | none => existingKeys s
    let parts := months.filterMap (fun k => lookupPart s k)
    let df0 := parts.flatten
    let df1 :=
      match startOpt with
      | some st => df0.filter (fun r => decide (dtLe st r.dt))
      | none => df0
    let df2 :=
      match endOpt with
      | some en => df1.filter (fun r => decide (dtLe r.dt en))
      | none => df1
    .ok (dedupKeepLast (sortByDt df2))

/-- Insert an integer into an ascending, duplicate-free list. -/
def insertInt (k : Int) : List Int → List Int
  | [] => [k]
  | k' :: t =>
    if k = k' then k' :: t
    else if k < k' then k :: k' :: t
    else k' :: insertInt k t

/-- Sorted distinct values of an integer list (models a sorted directory
listing). -/
def sortedDistinct (l : List Int) : List Int :=
  l.foldl (fun ks k => insertInt k ks) []

/-- Largest timestamp of a dataframe: `df["datetime"].max()`. -/
def maxDtOf (d : DT) (rest : List DT) : DT :=
  rest.foldl (fun a b => if dtLe a b then b else a) d

/-- Models `parquet_get_last_timestamp` (parquet_store.py, lines 53-77):
take the last sorted `year=*` directory, its last sorted `month=*`
directory, read that partition if the file exists, and return the
maximum timestamp of its rows (`None` for a missing directory level,
missing file, or empty dataframe). -/
def parquet_get_last_timestamp (s : BarStore) : Option DT :=
  let years := sortedDistinct (s.map (fun p => p.1.1))
  match years.getLast? with
  | none => none
  | some ly =>
    let months :=
      sortedDistinct
        ((s.filter (fun p => decide (p.1.1 = ly))).map (fun p => p.1.2))
    match months.getLast? with
    | none => none
    | some lm =>
      match lookupPart s (ly, lm) with
      | none => none
      | some rows =>
        match rows.map (fun r => r.dt) with
        | [] => none
        | d :: ds => some (maxDtOf d ds)

/-- The store's central well-formedness invariant: distinct partition
keys, and every row lives in the partition of its own calendar month. -/
def storeWF (s : BarStore) : Prop :=
  (s.map Prod.fst).Nodup ∧
    ∀ p ∈ s, ∀ r ∈ p.2, r.dt.ym = p.1

/-- The merged content `parquet_upsert` writes for one `(year, month)`
group: read-merge (dedup keeping the incoming rows)-sort, or just the
group when the partition file does not exist. -/
def combinedAt (dfn : List BarRow) (st : BarStore) (k : YM) : List BarRow :=
  match lookupPart st k with
  | some existing =>
    sortByDt (dedupKeepLast
      (existing ++ dfn.filter (fun r => decide (r.dt.ym = k))))
  | none => dfn.filter (fun r => decide (r.dt.ym = k))

/-! ## Binary tick decoding (ticks.py and the export path)

Raw bytes are `Nat`s below 256.  Every 20-byte record consists of five
big-endian 32-bit words; `ticks.py`'s `DTYPE` and the export command's
`dt` both slice this same layout and differ only in how they name and
convert the fields. -/

/-- Big-endian unsigned 32-bit word from four bytes. -/
def beU32 (b0 b1 b2 b3 : Nat) : Nat :=
  ((b0 * 256 + b1) * 256 + b2) * 256 + b3

/-- Two's-complement reading of a 32-bit word (`>i4`). -/
def toI32 (v : Nat) : Int :=
  if v < 2 ^ 31 then (v : Int) else (v : Int) - 2 ^ 32

/-- Exact rational value of an IEEE-754 single-precision word (`>f4`).
Normal and subnormal values are decoded bit-exactly; the exponent-255
patterns (infinities/NaN) have no rational value and are mapped to `0`
(no claim touches them: both decode paths apply this same function to
the same word, and the concrete volumes in the spec are normal). -/
def f32ToRat (v : Nat) : ℚ :=
  let sign : ℚ := if v / 2 ^ 31 % 2 = 1 then -1 else 1
  let ex : Nat := v / 2 ^ 23 % 256
  let frac : Nat := v % 2 ^ 23
  if ex = 0 then sign * (frac : ℚ) / 2 ^ 149
  else if ex = 255 then 0
  else sign * ((2 ^ 23 + frac : Nat) : ℚ) * (2 : ℚ) ^ ex / 2 ^ 150

/-- The five big-endian 32-bit words of each consecutive 20-byte record
(`np.frombuffer` with a 20-byte record dtype).  Callers guarantee the
length is an exact multiple of 20. -/
def words20 : List Nat → List (Nat × Nat × Nat × Nat × Nat)
  | b0 :: b1 :: b2 :: b3 :: b4 :: b5 :: b6 :: b7 :: b8 :: b9 ::
    b10 :: b11 :: b12 :: b13 :: b14 :: b15 :: b16 :: b17 :: b18 :: b19 ::
    rest =>
    (beU32 b0 b1 b2 b3, beU32 b4 b5 b6 b7, beU32 b8 b9 b10 b11,
     beU32 b12 b13 b14 b15, beU32 b16 b17 b18 b19) :: words20 rest
  | _ => []

/-- A row of the tick dataframe produced by `decode_hour_file`:
columns `["datetime", "price", "volume"]`, `datetime` in integer
milliseconds since the epoch (UTC). -/
structure TickRow where
  datetime : Int
  price : ℚ
  volume : ℚ
deriving DecidableEq, Repr

/-- The states an hourly `.bi5` file can present to `decode_hour_file`. -/
inductive HourSource where
  | missing
  | emptyFile
  | corruptStream
  | content (raw : List Nat)
deriving DecidableEq, Repr

/-- Exceptions `decode_hour_file` can raise. -/
inductive DecodeErr where
  | fileNotFound
  | bufferSizeError
deriving DecidableEq, Repr

/-- Models `decode_hour_file` (ticks.py, lines 39-66).  A missing path
raises `FileNotFoundError`.  A zero-length file and an `LZMAError`
during decompression are logged and produce an empty dataframe, as does
an empty decompressed buffer.  Otherwise `np.frombuffer` parses the
records — raising `ValueError` when the byte length is not a multiple
of the 20-byte record width — and each record becomes
`(origin + ms, bidp / 100000.0, bidv)`.  `origin` is the hour begin in
epoch milliseconds. -/
def decode_hour_file (src : HourSource) (origin : Int) :
    Except DecodeErr (List TickRow) :=
  match src with
  | .missing => .error .fileNotFound
  | .emptyFile => .ok []
  | .corruptStream => .ok []
  | .content raw =>
    if raw.length = 0 then .ok []
    else if raw.length % 20 ≠ 0 then .error .bufferSizeError
    else
      .ok ((words20 raw).map (fun w =>
        { datetime := origin + toI32 w.1,
          price := (toI32 w.2.1 : ℚ) / 100000,
          volume := f32ToRat w.2.2.2.1 }))

/-- A row of the export path's tick dataframe (dukascopy-data-manager.py,
lines 190-203): dtype `[TIME, ASKP, BIDP, ASKV, BIDV]`, `TIME` converted
to epoch milliseconds via the file-hour origin, prices scaled by
1/100000. -/
structure XRow where
  time : Int
  askp : ℚ
  bidp : ℚ
  askv : ℚ
  bidv : ℚ
deriving DecidableEq, Repr

/-- Models the export command's decoding of one decompressed hourly
buffer: `np.frombuffer` with dtype
`[('TIME','>i4'), ('ASKP','>i4'), ('BIDP','>i4'), ('ASKV','>f4'),
('BIDV','>f4')]`, then `TIME → origin + ms` and
`ASKP, BIDP → raw / 100_000`. -/
def export_decode (raw : List Nat) (origin : Int) : List XRow :=
  (words20 raw).map (fun w =>
    { time := origin + toI32 w.1,
      askp := (toI32 w.2.1 : ℚ) / 100000,
      bidp := (toI32 w.2.2.1 : ℚ) / 100000,
      askv := f32ToRat w.2.2.2.1,
      bidv := f32ToRat w.2.2.2.2 })

/-! ## Minute aggregation (ticks.py) and resampling (ohlcv.py) -/

/-- A bar row `[datetime, Open, High, Low, Close, Volume]` with integer
epoch-millisecond timestamp, as produced by the aggregators. -/
structure MBar where
  datetime : Int
  opn : ℚ
  high : ℚ
  low : ℚ
  close : ℚ
  volume : ℚ
deriving DecidableEq, Repr

/-- `datetime` comparison for `sort_index`. -/
def tickLeB (a b : TickRow) : Bool := decide (a.datetime ≤ b.datetime)

/-- Models `ticks.index.is_monotonic_increasing`. -/
def isMonotonicTicks : List TickRow → Bool
  | [] => true
  | [_] => true
  | a :: b :: t => decide (a.datetime ≤ b.datetime) && isMonotonicTicks (b :: t)

/-- Group a list into maximal runs of equal keys.  On a list sorted by
the key this is exactly the pandas `resample`/`groupby` bucketing, with
buckets in ascending order and rows in original order inside each
bucket; empty buckets (dropped by `dropna` in the source) never appear. -/
def groupRuns {α : Type} (key : α → Int) : List α → List (Int × List α)
  | [] => []
  | x :: xs =>
    match groupRuns key xs with
    | [] => [(key x, [x])]
    | (k, g) :: rest =>
      if key x = k then (key x, x :: g) :: rest
      else (key x, [x]) :: (k, g) :: rest

/-- OHLCV of one nonempty minute bucket: `price` first/max/min/last and
`volume` sum, labelled with the window start (left label). -/
def barOfRun (windowMs : Int) (k : Int) : List TickRow → MBar
  | [] => { datetime := k * windowMs, opn := 0, high := 0, low := 0,
            close := 0, volume := 0 }
  | x :: xs =>
    { datetime := k * windowMs,
      opn := x.price,
      high := (xs.map (fun t => t.price)).foldl max x.price,
      low := (xs.map (fun t => t.price)).foldl min x.price,
      close := (xs.getLastD x).price,
      volume := x.volume + (xs.map (fun t => t.volume)).sum }

/-- Models `aggregate_ticks_to_1m` (ticks.py, lines 82-101): byte-order
normalization is value-preserving and dropped; sort by timestamp unless
already monotonic; resample into left-closed, left-labelled 1-minute
windows; aggregate price first/max/min/last and volume sum; drop empty
windows (`dropna`). -/
def aggregate_ticks_to_1m (ticks : List TickRow) : List MBar :=
  let sorted := if isMonotonicTicks ticks then ticks else insSort tickLeB ticks
  (groupRuns (fun t => Int.fdiv t.datetime 60000) sorted).map
    (fun p => barOfRun 60000 p.1 p.2)

/-- The resampling timeframes of `SUPPORTED_TFS` / `TF_TO_PANDAS`
(ohlcv.py): 1m, 5m, 15m, 30m, 1h, 4h, 1D. -/
inductive TFr where
  | m1
  | m5
  | m15
  | m30
  | h1
  | h4
  | d1
deriving DecidableEq, Repr

/-- Window length in milliseconds of each pandas rule in
`TF_TO_PANDAS`. -/
def tfRuleMs : TFr → Int
  | .m1 => 60000
  | .m5 => 300000
  | .m15 => 900000
  | .m30 => 1800000
  | .h1 => 3600000
  | .h4 => 14400000
  | .d1 => 86400000

/-- OHLCV of one nonempty resample window over 1-minute bars:
Open first, High max, Low min, Close last, Volume sum, left label. -/
def barOfWindow (windowMs : Int) (k : Int) : List MBar → MBar
  | [] => { datetime := k * windowMs, opn := 0, high := 0, low := 0,
            close := 0, volume := 0 }
  | x :: xs =>
    { datetime := k * windowMs,
      opn := x.opn,
      high := (xs.map (fun b => b.high)).foldl max x.high,
      low := (xs.map (fun b => b.low)).foldl min x.low,
      close := (xs.getLastD x).close,
      volume := x.volume + (xs.map (fun b => b.volume)).sum }

/-- Models `resample_from_1m` (ohlcv.py, lines 26-41): the `"1m"` target
returns a copy of the input; otherwise resample the (time-indexed,
monotone) 1-minute bars into left-closed, left-labelled windows of the
target rule, aggregate Open/High/Low/Close/Volume as
first/max/min/last/sum, and drop empty windows (`dropna`). -/
def resample_from_1m (df1m : List MBar) (tf : TFr) : List MBar :=
  match tf with
  | .m1 => df1m
  | _ =>
    (groupRuns (fun b => Int.fdiv b.datetime (tfRuleMs tf)) df1m).map
      (fun p => barOfWindow (tfRuleMs tf) p.1 p.2)

/-- The OHLC sanity invariant: `low ≤ min(open, close)` and
`high ≥ max(open, close)`. -/
def mbarInv (b : MBar) : Prop :=
  b.low ≤ b.opn ∧ b.low ≤ b.close ∧ b.opn ≤ b.high ∧ b.close ≤ b.high

instance (b : MBar) : Decidable (mbarInv b) := by
  unfold mbarInv
  infer_instance

/-! ## Tick-count aggregation (dukascopy-data-manager.py, aggregate_data) -/

/-- A row of the export path's aggregated dataframe:
columns `[date, open, high, low, close, vol]`. -/
structure XBar where
  date : Int
  opn : ℚ
  high : ℚ
  low : ℚ
  close : ℚ
  vol : ℚ
deriving DecidableEq, Repr

/-- `aggregate_data` on a tick timeframe returns either the input
dataframe unchanged (`tick_num == 1`) or a dataframe of aggregated
bars. -/
inductive AggTicksResult where
  | raw (df : List XRow)
  | bars (l : List XBar)
deriving DecidableEq, Repr

/-- Fuel-driven worker for `chunksOf`; `fuel ≥ l.length` always holds at
call sites, so the fuel-exhausted branch is unreachable. -/
def chunksOfAux {α : Type} (n : Nat) : Nat → List α → List (List α)
  | _, [] => []
  | 0, _ :: _ => []
  | fuel + 1, x :: xs =>
    (x :: xs.take (n - 1)) :: chunksOfAux n fuel (xs.drop (n - 1))

/-- Split a list into consecutive chunks of `n` elements, the trailing
chunk possibly shorter: the grouping performed by
`df.groupby(df.index // tick_num)` on a 0-based range index (group keys
are ascending, rows keep their order inside each group). -/
def chunksOf {α : Type} (n : Nat) (l : List α) : List (List α) :=
  chunksOfAux n l.length l

/-- OHLCV of one (always nonempty) tick group: `date`/`open` from the
first row, `high`/`low` max/min of `BIDP`, `close` from the last row,
`vol` the `BIDV` sum. -/
def xbarOfGroup : List XRow → XBar
  | [] => { date := 0, opn := 0, high := 0, low := 0, close := 0, vol := 0 }
  | x :: xs =>
    { date := x.time,
      opn := x.bidp,
      high := (xs.map (fun r => r.bidp)).foldl max x.bidp,
      low := (xs.map (fun r => r.bidp)).foldl min x.bidp,
      close := (xs.getLastD x).bidp,
      vol := x.bidv + (xs.map (fun r => r.bidv)).sum }

/-- Models the tick branch of `aggregate_data`
(dukascopy-data-manager.py, lines 219-232): `tick_num == 1` returns the
dataframe unchanged; otherwise group by `index // tick_num` and
aggregate `TIME` first, `BIDP` first/max/min/last, `BIDV` sum. -/
def aggregate_data_ticks (tickNum : Nat) (df : List XRow) : AggTicksResult :=
  if tickNum = 1 then .raw df
  else .bars ((chunksOf tickNum df).map xbarOfGroup)

/-- A timestamp matches the `[start, end]` range filter of
`parquet_load_range`: at or after `start` when given, and at or before
`end` when given. -/
def matchesRange (so eo : Option DT) (t : DT) : Prop :=
  (match so with
   | some st => dtLe st t
   | none => True) ∧
  (match eo with
   | some en => dtLe t en
   | none => True)

instance (so eo : Option DT) (t : DT) : Decidable (matchesRange so eo t) := by
  unfold matchesRange
  cases so <;> cases eo <;> infer_instance

/-! ## Theorems -/

theorem insertLe_perm {α : Type} (le : α → α → Bool) (x : α) (l : List α) :
    (insertLe le x l).Perm (x :: l) := by
  induction l with
  | nil => simp [insertLe]
  | cons y ys ih =>
    simp only [insertLe]
    by_cases h : le x y
    · simp [h]
    · simp only [h, if_neg]
      exact ((ih.cons y).trans (List.Perm.swap x y ys)).symm.symm

theorem insSort_perm {α : Type} (le : α → α → Bool) (l : List α) :
    (insSort le l).Perm l := by
  induction l with
  | nil => simp [insSort]
  | cons x xs ih =>
    exact (insertLe_perm le x (insSort le xs)).trans (ih.cons x)

theorem mem_insSort {α : Type} (le : α → α → Bool) {x : α} {l : List α} :
    x ∈ insSort le l ↔ x ∈ l :=
  (insSort_perm le l).mem_iff

theorem insertLe_sorted {α : Type} (le : α → α → Bool)
    (htr : ∀ a b c, le a b = true → le b c = true → le a c = true)
    (htot : ∀ a b, le a b = true ∨ le b a = true)
    (x : α) (l : List α) (hl : l.Pairwise (fun a b => le a b = true)) :
    (insertLe le x l).Pairwise (fun a b => le a b = true) := by
  induction l with
  | nil => simp [insertLe]
  | cons y ys ih =>
    rcases List.pairwise_cons.mp hl with ⟨hy, hys⟩
    simp only [insertLe]
    by_cases h : le x y
    · simp only [h, if_pos]
      refine List.pairwise_cons.mpr ⟨?_, hl⟩
      intro z hz
      rcases List.mem_cons.mp hz with rfl | hz
      · exact h
      · exact htr x y z h (hy z hz)
    · simp only [h, if_neg]
      refine List.pairwise_cons.mpr ⟨?_, ih hys⟩
      intro z hz
      rcases List.mem_cons.mp ((insertLe_perm le x ys).mem_iff.mp hz) with rfl | hz
      · rcases htot z y with hzy | hyz
        · exact absurd hzy (by simpa using h)
        · exact hyz
      · exact hy z hz

theorem insSort_sorted {α : Type} (le : α → α → Bool)
    (htr : ∀ a b c, le a b = true → le b c = true → le a c = true)
    (htot : ∀ a b, le a b = true ∨ le b a = true)
    (l : List α) :
    (insSort le l).Pairwise (fun a b => le a b = true) := by
  induction l with
  | nil => simp [insSort]
  | cons x xs ih => exact insertLe_sorted le htr htot x (insSort le xs) ih

theorem ymLt_trans {a b c : YM} (h1 : ymLt a b) (h2 : ymLt b c) : ymLt a c := by
  rcases h1 with h1 | ⟨h1, h1'⟩ <;> rcases h2 with h2 | ⟨h2, h2'⟩ <;>
    simp only [ymLt] <;> omega

theorem ymLe_trans {a b c : YM} (h1 : ymLe a b) (h2 : ymLe b c) : ymLe a c := by
  rcases h1 with h1 | ⟨h1, h1'⟩ <;> rcases h2 with h2 | ⟨h2, h2'⟩ <;>
    simp only [ymLe] <;> omega

theorem ymLe_antisymm {a b : YM} (h1 : ymLe a b) (h2 : ymLe b a) : a = b := by
  rcases a with ⟨ay, am⟩; rcases b with ⟨by', bm⟩
  rcases h1 with h1 | ⟨h1, h1'⟩ <;> rcases h2 with h2 | ⟨h2, h2'⟩ <;>
    simp_all <;> omega

theorem ymLe_total (a b : YM) : ymLe a b ∨ ymLe b a := by
  simp only [ymLe]; omega

theorem ymLt_irrefl (a : YM) : ¬ ymLt a a := by simp [ymLt]

theorem ymLt_of_ymLe_of_ne {a b : YM} (h : ymLe a b) (hne : a ≠ b) : ymLt a b := by
  rcases a with ⟨ay, am⟩; rcases b with ⟨by', bm⟩
  have hne' : ay ≠ by' ∨ am ≠ bm := by
    by_contra hc
    push_neg at hc
    exact hne (by simp [hc.1, hc.2])
  simp only [ymLe] at h
  simp only [ymLt]
  rcases hne' with hne' | hne' <;> omega

theorem ymLe_of_ymLt {a b : YM} (h : ymLt a b) : ymLe a b := by
  rcases h with h | ⟨h, h'⟩
  · exact Or.inl h
  · exact Or.inr ⟨h, le_of_lt h'⟩

theorem not_ymLt_iff {a b : YM} : ¬ ymLt a b ↔ ymLe b a := by
  simp only [ymLt, ymLe]; omega

theorem dtLt_trans {a b c : DT} (h1 : dtLt a b) (h2 : dtLt b c) : dtLt a c := by
  rcases h1 with h1 | ⟨h1, h1'⟩ <;> rcases h2 with h2 | ⟨h2, h2'⟩
  · exact Or.inl (ymLt_trans h1 h2)
  · exact Or.inl (h2 ▸ h1)
  · exact Or.inl (h1 ▸ h2)
  · exact Or.inr ⟨h1.trans h2, by omega⟩

theorem dtLe_trans {a b c : DT} (h1 : dtLe a b) (h2 : dtLe b c) : dtLe a c := by
  rcases h1 with h1 | ⟨h1, h1'⟩ <;> rcases h2 with h2 | ⟨h2, h2'⟩
  · exact Or.inl (ymLt_trans h1 h2)
  · exact Or.inl (h2 ▸ h1)
  · exact Or.inl (h1 ▸ h2)
  · exact Or.inr ⟨h1.trans h2, by omega⟩

theorem dtLe_antisymm {a b : DT} (h1 : dtLe a b) (h2 : dtLe b a) : a = b := by
  rcases a with ⟨⟨ay, am⟩, as'⟩; rcases b with ⟨⟨by', bm⟩, bs⟩
  rcases h1 with h1 | ⟨h1, h1'⟩ <;> rcases h2 with h2 | ⟨h2, h2'⟩ <;>
    simp_all [ymLt] <;> omega

theorem dtLe_total (a b : DT) : dtLe a b ∨ dtLe b a := by
  rcases a with ⟨⟨ay, am⟩, as'⟩; rcases b with ⟨⟨by', bm⟩, bs⟩
  simp only [dtLe, ymLt, Prod.mk.injEq]
  omega

theorem dtLe_refl (a : DT) : dtLe a a := Or.inr ⟨rfl, le_refl _⟩

theorem dtLt_irrefl (a : DT) : ¬ dtLt a a := by
  simp [dtLt, ymLt_irrefl]

theorem not_dtLt_iff {a b : DT} : ¬ dtLt a b ↔ dtLe b a := by
  rcases a with ⟨⟨ay, am⟩, as'⟩; rcases b with ⟨⟨by', bm⟩, bs⟩
  simp only [dtLt, dtLe, ymLt, Prod.mk.injEq, DT.mk.injEq]
  omega

theorem dtLe_of_dtLt {a b : DT} (h : dtLt a b) : dtLe a b := by
  rcases h with h | ⟨h, h'⟩
  · exact Or.inl h
  · exact Or.inr ⟨h, le_of_lt h'⟩

theorem dtLt_of_dtLe_of_ne {a b : DT} (h : dtLe a b) (hne : a ≠ b) : dtLt a b := by
  rcases h with h | ⟨h, h'⟩
  · exact Or.inl h
  · rcases lt_or_eq_of_le h' with h'' | h''
    · exact Or.inr ⟨h, h''⟩
    · exact absurd (by cases a; cases b; simp_all) hne

theorem ymLe_of_dtLe {a b : DT} (h : dtLe a b) : ymLe a.ym b.ym := by
  rcases h with h | ⟨h, _⟩
  · exact ymLe_of_ymLt h
  · exact Or.inr ⟨congrArg Prod.fst h, le_of_eq (congrArg Prod.snd h)⟩

theorem monthIdx_le_of_ymLe {a b : YM} (ha : validYM a) (hb : validYM b)
    (h : ymLe a b) : monthIdx a ≤ monthIdx b := by
  rcases a with ⟨ay, am⟩; rcases b with ⟨by', bm⟩
  simp only [validYM] at ha hb
  simp only [ymLe] at h
  simp only [monthIdx]
  omega

theorem monthIdx_inj {a b : YM} (ha : validYM a) (hb : validYM b)
    (h : monthIdx a = monthIdx b) : a = b := by
  rcases a with ⟨ay, am⟩; rcases b with ⟨by', bm⟩
  rcases ha with ⟨ha1, ha2⟩; rcases hb with ⟨hb1, hb2⟩
  simp only [monthIdx] at h
  have : ay = by' ∧ am = bm := by constructor <;> omega
  simp [this.1, this.2]

theorem ymLt_iff_monthIdx {a b : YM} (ha : validYM a) (hb : validYM b) :
    ymLt a b ↔ monthIdx a < monthIdx b := by
  rcases a with ⟨ay, am⟩; rcases b with ⟨by', bm⟩
  simp only [validYM] at ha hb
  simp only [ymLt, monthIdx]
  omega

theorem sortByDt_perm (l : List BarRow) : (sortByDt l).Perm l :=
  insSort_perm rowLeB l

theorem rowLeB_trans : ∀ a b c : BarRow,
    rowLeB a b = true → rowLeB b c = true → rowLeB a c = true := by
  intro a b c h1 h2
  simp only [rowLeB, decide_eq_true_eq] at h1 h2 ⊢
  exact dtLe_trans h1 h2

theorem rowLeB_total : ∀ a b : BarRow, rowLeB a b = true ∨ rowLeB b a = true := by
  intro a b
  simp only [rowLeB, decide_eq_true_eq]
  exact dtLe_total a.dt b.dt

theorem sortByDt_sorted (l : List BarRow) :
    (sortByDt l).Pairwise (fun a b => dtLe a.dt b.dt) := by
  have := insSort_sorted rowLeB rowLeB_trans rowLeB_total l
  refine this.imp ?_
  intro a b h
  simp only [rowLeB, decide_eq_true_eq] at h
  exact h

/-- Rows surviving the dedup are rows of the input. -/
theorem mem_of_mem_dedupKeepLast {x : BarRow} {l : List BarRow}
    (h : x ∈ dedupKeepLast l) : x ∈ l := by
  induction l with
  | nil => simp only [dedupKeepLast] at h; exact h
  | cons y ys ih =>
    simp only [dedupKeepLast] at h
    by_cases hdup : ys.any (fun z => decide (z.dt = y.dt))
    · simp only [hdup, if_pos] at h
      exact List.mem_cons_of_mem y (ih h)
    · simp only [hdup, if_neg] at h
      rcases List.mem_cons.mp h with rfl | h
      · exact List.mem_cons_self x ys
      · exact List.mem_cons_of_mem y (ih h)

theorem getLast?_cons_of_ne_nil {α : Type} {a : α} {l : List α} (h : l ≠ []) :
    (a :: l).getLast? = l.getLast? := by
  cases l with
  | nil => exact absurd rfl h
  | cons b t => exact List.getLast?_cons_cons

/-- The dedup keeps exactly the rows that are the last occurrence of
their own timestamp: `x` survives iff the sub-dataframe of rows carrying
`x.dt` ends with `x`. -/
theorem mem_dedupKeepLast_iff {x : BarRow} {l : List BarRow} :
    x ∈ dedupKeepLast l ↔
      (l.filter (fun y => decide (y.dt = x.dt))).getLast? = some x := by
  induction l with
  | nil => simp [dedupKeepLast]
  | cons y ys ih =>
    simp only [dedupKeepLast]
    by_cases hdup : ys.any (fun z => decide (z.dt = y.dt)) = true
    · rw [if_pos hdup]
      by_cases hxy : y.dt = x.dt
      · have hne : ys.filter (fun z => decide (z.dt = x.dt)) ≠ [] := by
          rcases List.any_eq_true.mp hdup with ⟨z, hz, hz'⟩
          have hzx : z.dt = x.dt := (of_decide_eq_true hz').trans hxy
          exact List.ne_nil_of_mem (List.mem_filter.mpr ⟨hz, decide_eq_true hzx⟩)
        have hb : decide (y.dt = x.dt) = true := decide_eq_true hxy
        rw [ih, List.filter_cons]
        simp only [hb, if_true]
        rw [getLast?_cons_of_ne_nil hne]
      · have hb : decide (y.dt = x.dt) = false := decide_eq_false hxy
        rw [ih, List.filter_cons]
        simp only [hb]
        rw [if_neg Bool.false_ne_true]
    · rw [if_neg hdup]
      by_cases hxy : y.dt = x.dt
      · have hfilter : ys.filter (fun z => decide (z.dt = x.dt)) = [] := by
          rw [List.filter_eq_nil_iff]
          intro z hz hzx
          exact hdup (List.any_eq_true.mpr
            ⟨z, hz, decide_eq_true ((of_decide_eq_true hzx).trans hxy.symm)⟩)
        have hb : decide (y.dt = x.dt) = true := decide_eq_true hxy
        rw [List.filter_cons]
        simp only [hb, if_true]
        rw [hfilter, List.getLast?_singleton]
        constructor
        · intro hx
          rcases List.mem_cons.mp hx with rfl | hx
          · rfl
          · exfalso
            have := ih.mp hx
            rw [hfilter] at this
            simp at this
        · intro hx
          rw [Option.some.injEq] at hx
          exact hx ▸ List.mem_cons_self y (dedupKeepLast ys)
      · have hb : decide (y.dt = x.dt) = false := decide_eq_false hxy
        rw [List.filter_cons]
        simp only [hb]
        rw [if_neg Bool.false_ne_true]
        rw [← ih]
        constructor
        · intro hx
          rcases List.mem_cons.mp hx with rfl | hx
          · exact absurd rfl hxy
          · exact hx
        · exact fun hx => List.mem_cons_of_mem y hx

/-- No two rows of a dedup'd dataframe share a timestamp. -/
theorem dedupKeepLast_pairwise_ne (l : List BarRow) :
    (dedupKeepLast l).Pairwise (fun a b => a.dt ≠ b.dt) := by
  induction l with
  | nil => simp [dedupKeepLast]
  | cons y ys ih =>
    simp only [dedupKeepLast]
    by_cases hdup : ys.any (fun z => decide (z.dt = y.dt)) = true
    · rw [if_pos hdup]; exact ih
    · rw [if_neg hdup]
      refine List.pairwise_cons.mpr ⟨?_, ih⟩
      intro z hz hzy
      exact hdup (List.any_eq_true.mpr
        ⟨z, mem_of_mem_dedupKeepLast hz, decide_eq_true hzy.symm⟩)

/-- Dedup of a dataframe sorted by `datetime` is strictly increasing in
`datetime`. -/
theorem dedupKeepLast_strict {l : List BarRow}
    (hl : l.Pairwise (fun a b => dtLe a.dt b.dt)) :
    (dedupKeepLast l).Pairwise (fun a b => dtLt a.dt b.dt) := by
  induction l with
  | nil => simp [dedupKeepLast]
  | cons y ys ih =>
    rcases List.pairwise_cons.mp hl with ⟨hy, hys⟩
    simp only [dedupKeepLast]
    by_cases hdup : ys.any (fun z => decide (z.dt = y.dt)) = true
    · rw [if_pos hdup]; exact ih hys
    · rw [if_neg hdup]
      refine List.pairwise_cons.mpr ⟨?_, ih hys⟩
      intro z hz
      have hzys := mem_of_mem_dedupKeepLast hz
      refine dtLt_of_dtLe_of_ne (hy z hzys) ?_
      intro heq
      exact hdup (List.any_eq_true.mpr ⟨z, hzys, decide_eq_true heq.symm⟩)

/-- In a dataframe with pairwise-distinct timestamps, the timestamp
determines the row. -/
theorem eq_of_mem_pairwise_ne {l : List BarRow} {a b : BarRow}
    (hl : l.Pairwise (fun x y => x.dt ≠ y.dt))
    (ha : a ∈ l) (hb : b ∈ l) (hdt : a.dt = b.dt) : a = b := by
  induction l with
  | nil => cases ha
  | cons y ys ih =>
    rcases List.pairwise_cons.mp hl with ⟨hy, hys⟩
    rcases List.mem_cons.mp ha with ha' | ha'
    · rcases List.mem_cons.mp hb with hb' | hb'
      · exact ha'.trans hb'.symm
      · exact absurd (ha' ▸ hdt) (hy b hb')
    · rcases List.mem_cons.mp hb with hb' | hb'
      · exact absurd (hb' ▸ hdt.symm) (hy a ha')
      · exact ih hys ha' hb'

/-- In a dataframe with pairwise-distinct timestamps, filtering on a
member's timestamp returns exactly that row. -/
theorem filter_eq_singleton_of_pairwise_ne {l : List BarRow} {r : BarRow}
    (hl : l.Pairwise (fun x y => x.dt ≠ y.dt)) (hr : r ∈ l) :
    l.filter (fun y => decide (y.dt = r.dt)) = [r] := by
  induction l with
  | nil => cases hr
  | cons y ys ih =>
    rcases List.pairwise_cons.mp hl with ⟨hy, hys⟩
    rcases List.mem_cons.mp hr with rfl | hr
    · rw [List.filter_cons]
      have hb : decide (r.dt = r.dt) = true := decide_eq_true rfl
      simp only [hb, if_true]
      have hnil : ys.filter (fun z => decide (z.dt = r.dt)) = [] := by
        rw [List.filter_eq_nil_iff]
        intro z hz hzy
        exact (hy z hz) (of_decide_eq_true hzy).symm
      rw [hnil]
      simp
    · rw [List.filter_cons]
      have hb : decide (y.dt = r.dt) = false :=
        decide_eq_false (hy r hr)
      simp only [hb]
      rw [if_neg Bool.false_ne_true]
      exact ih hys hr

/-- Rows with pairwise-distinct timestamps form a `Nodup` list. -/
theorem nodup_of_pairwise_ne {l : List BarRow}
    (hl : l.Pairwise (fun x y => x.dt ≠ y.dt)) : l.Nodup :=
  hl.imp (fun h => by intro heq; exact h (congrArg BarRow.dt heq))

/-- A non-decreasing `isMonotonicByDt` dataframe is `dtLe`-sorted. -/
theorem pairwise_of_isMonotonic {l : List BarRow}
    (h : isMonotonicByDt l = true) :
    l.Pairwise (fun a b => dtLe a.dt b.dt) := by
  induction l with
  | nil => simp
  | cons a t ih =>
    cases t with
    | nil => simp
    | cons b t' =>
      simp only [isMonotonicByDt, Bool.and_eq_true, decide_eq_true_eq] at h
      have htail := ih h.2
      refine List.pairwise_cons.mpr ⟨?_, htail⟩
      intro z hz
      rcases List.mem_cons.mp hz with rfl | hz
      · exact h.1
      · rcases List.pairwise_cons.mp htail with ⟨hb, _⟩
        exact dtLe_trans h.1 (hb z hz)

theorem lookup_storeSet_self (s : BarStore) (k : YM) (v : List BarRow) :
    lookupPart (storeSet s k v) k = some v := by
  induction s with
  | nil => simp [storeSet, lookupPart]
  | cons p s ih =>
    rcases p with ⟨k', w⟩
    simp only [storeSet]
    by_cases h : k' = k
    · rw [if_pos h]
      simp [lookupPart]
    · rw [if_neg h]
      simp only [lookupPart]
      rw [if_neg h]
      exact ih

theorem lookup_storeSet_other (s : BarStore) {k k' : YM} (v : List BarRow)
    (h : k ≠ k') : lookupPart (storeSet s k v) k' = lookupPart s k' := by
  induction s with
  | nil =>
    simp only [storeSet, lookupPart]
    rw [if_neg h]
  | cons p s ih =>
    rcases p with ⟨k0, w⟩
    simp only [storeSet]
    by_cases h0 : k0 = k
    · rw [if_pos h0]
      simp only [lookupPart]
      rw [if_neg h, if_neg (h0 ▸ h)]
    · rw [if_neg h0]
      simp only [lookupPart]
      by_cases h1 : k0 = k'
      · rw [if_pos h1, if_pos h1]
      · rw [if_neg h1, if_neg h1]
        exact ih

theorem storeSet_of_lookup_eq {s : BarStore} {k : YM} {v : List BarRow}
    (h : lookupPart s k = some v) : storeSet s k v = s := by
  induction s with
  | nil => simp [lookupPart] at h
  | cons p s ih =>
    rcases p with ⟨k0, w⟩
    simp only [lookupPart] at h
    simp only [storeSet]
    by_cases h0 : k0 = k
    · rw [if_pos h0] at h ⊢
      rw [Option.some.injEq] at h
      rw [h0, h]
    · rw [if_neg h0] at h ⊢
      rw [ih h]

/-- Every key of `storeSet s k v` is `k` or a key of `s`. -/
theorem keys_storeSet_subset {s : BarStore} {k k' : YM} {v : List BarRow}
    (h : k' ∈ (storeSet s k v).map Prod.fst) :
    k' = k ∨ k' ∈ s.map Prod.fst := by
  induction s with
  | nil =>
    simp only [storeSet, List.map_cons, List.map_nil, List.mem_singleton] at h
    exact Or.inl h
  | cons p s ih =>
    rcases p with ⟨k0, w⟩
    simp only [storeSet] at h
    by_cases h0 : k0 = k
    · rw [if_pos h0] at h
      simp only [List.map_cons, List.mem_cons] at h
      rcases h with rfl | h
      · exact Or.inl rfl
      · exact Or.inr (by simp [h])
    · rw [if_neg h0] at h
      simp only [List.map_cons, List.mem_cons] at h
      rcases h with rfl | h
      · exact Or.inr (by simp)
      · rcases ih h with h' | h'
        · exact Or.inl h'
        · exact Or.inr (by simp [h'])

/-- Partition contents of `storeSet s k v` are `v` or contents of `s`. -/
theorem lookup_storeSet_cases {s : BarStore} {k k' : YM}
    {v w : List BarRow} (h : lookupPart (storeSet s k v) k' = some w) :
    w = v ∨ lookupPart s k' = some w := by
  by_cases hk : k = k'
  · subst hk
    rw [lookup_storeSet_self] at h
    rw [Option.some.injEq] at h
    exact Or.inl h.symm
  · rw [lookup_storeSet_other s v hk] at h
    exact Or.inr h

theorem mem_insertKey {x k : YM} {ks : List YM} :
    x ∈ insertKey k ks ↔ x = k ∨ x ∈ ks := by
  induction ks with
  | nil => simp [insertKey]
  | cons k' t ih =>
    simp only [insertKey]
    by_cases h1 : k = k'
    · rw [if_pos h1]
      subst h1
      constructor
      · intro hx
        exact Or.inr hx
      · intro hx
        rcases hx with rfl | hx
        · exact List.mem_cons_self _ _
        · exact hx
    · rw [if_neg h1]
      by_cases h2 : ymLt k k'
      · rw [if_pos h2]
        simp only [List.mem_cons]
      · rw [if_neg h2]
        simp only [List.mem_cons, ih]
        tauto

theorem insertKey_sorted {k : YM} {ks : List YM}
    (h : ks.Pairwise ymLt) : (insertKey k ks).Pairwise ymLt := by
  induction ks with
  | nil => simp [insertKey]
  | cons k' t ih =>
    rcases List.pairwise_cons.mp h with ⟨hk', ht⟩
    simp only [insertKey]
    by_cases h1 : k = k'
    · rw [if_pos h1]; exact h
    · rw [if_neg h1]
      by_cases h2 : ymLt k k'
      · rw [if_pos h2]
        refine List.pairwise_cons.mpr ⟨?_, h⟩
        intro z hz
        rcases List.mem_cons.mp hz with rfl | hz
        · exact h2
        · exact ymLt_trans h2 (hk' z hz)
      · rw [if_neg h2]
        have h3 : ymLt k' k :=
          ymLt_of_ymLe_of_ne (not_ymLt_iff.mp h2) (fun he => h1 he.symm)
        refine List.pairwise_cons.mpr ⟨?_, ih ht⟩
        intro z hz
        rcases mem_insertKey.mp hz with rfl | hz
        · exact h3
        · exact hk' z hz

theorem foldl_insertKey_sorted (ms : List YM) (acc : List YM)
    (hacc : acc.Pairwise ymLt) :
    (ms.foldl (fun ks k => insertKey k ks) acc).Pairwise ymLt := by
  induction ms generalizing acc with
  | nil => exact hacc
  | cons m ms ih =>
    exact ih (insertKey m acc) (insertKey_sorted hacc)

theorem mem_foldl_insertKey {x : YM} (ms : List YM) (acc : List YM) :
    x ∈ ms.foldl (fun ks k => insertKey k ks) acc ↔ x ∈ acc ∨ x ∈ ms := by
  induction ms generalizing acc with
  | nil => simp
  | cons m ms ih =>
    simp only [List.foldl_cons, ih, mem_insertKey, List.mem_cons]
    tauto

theorem groupKeys_sorted (l : List BarRow) : (groupKeys l).Pairwise ymLt :=
  foldl_insertKey_sorted _ [] (by simp)

theorem groupKeys_nodup (l : List BarRow) : (groupKeys l).Nodup :=
  (groupKeys_sorted l).imp (fun h => by
    intro heq
    exact ymLt_irrefl _ (heq ▸ h))

theorem mem_groupKeys {k : YM} {l : List BarRow} :
    k ∈ groupKeys l ↔ ∃ r ∈ l, r.dt.ym = k := by
  unfold groupKeys
  rw [mem_foldl_insertKey]
  simp only [List.not_mem_nil, false_or, List.mem_map]

theorem mem_insertInt {x k : Int} {ks : List Int} :
    x ∈ insertInt k ks ↔ x = k ∨ x ∈ ks := by
  induction ks with
  | nil => simp [insertInt]
  | cons k' t ih =>
    simp only [insertInt]
    by_cases h1 : k = k'
    · rw [if_pos h1]
      subst h1
      simp only [List.mem_cons]
      tauto
    · rw [if_neg h1]
      by_cases h2 : k < k'
      · rw [if_pos h2]
        simp only [List.mem_cons]
      · rw [if_neg h2]
        simp only [List.mem_cons, ih]
        tauto

theorem insertInt_sorted {k : Int} {ks : List Int}
    (h : ks.Pairwise (· < ·)) : (insertInt k ks).Pairwise (· < ·) := by
  induction ks with
  | nil => simp [insertInt]
  | cons k' t ih =>
    rcases List.pairwise_cons.mp h with ⟨hk', ht⟩
    simp only [insertInt]
    by_cases h1 : k = k'
    · rw [if_pos h1]; exact h
    · rw [if_neg h1]
      by_cases h2 : k < k'
      · rw [if_pos h2]
        refine List.pairwise_cons.mpr ⟨?_, h⟩
        intro z hz
        rcases List.mem_cons.mp hz with rfl | hz
        · exact h2
        · exact h2.trans (hk' z hz)
      · rw [if_neg h2]
        have h3 : k' < k := by omega
        refine List.pairwise_cons.mpr ⟨?_, ih ht⟩
        intro z hz
        rcases mem_insertInt.mp hz with rfl | hz
        · exact h3
        · exact hk' z hz

theorem foldl_insertInt_sorted (ms : List Int) (acc : List Int)
    (hacc : acc.Pairwise (· < ·)) :
    (ms.foldl (fun ks k => insertInt k ks) acc).Pairwise (· < ·) := by
  induction ms generalizing acc with
  | nil => exact hacc
  | cons m ms ih => exact ih (insertInt m acc) (insertInt_sorted hacc)

theorem mem_foldl_insertInt {x : Int} (ms : List Int) (acc : List Int) :
    x ∈ ms.foldl (fun ks k => insertInt k ks) acc ↔ x ∈ acc ∨ x ∈ ms := by
  induction ms generalizing acc with
  | nil => simp
  | cons m ms ih =>
    simp only [List.foldl_cons, ih, mem_insertInt, List.mem_cons]
    tauto

theorem sortedDistinct_sorted (l : List Int) :
    (sortedDistinct l).Pairwise (· < ·) :=
  foldl_insertInt_sorted _ [] (by simp)

theorem mem_sortedDistinct {x : Int} {l : List Int} :
    x ∈ sortedDistinct l ↔ x ∈ l := by
  unfold sortedDistinct
  rw [mem_foldl_insertInt]
  simp

theorem getLast?_mem {α : Type} {l : List α} {m : α}
    (h : l.getLast? = some m) : m ∈ l := by
  induction l with
  | nil => simp at h
  | cons a t ih =>
    cases t with
    | nil =>
      rw [List.getLast?_singleton, Option.some.injEq] at h
      simp [h]
    | cons b t' =>
      rw [List.getLast?_cons_cons] at h
      exact List.mem_cons_of_mem a (ih h)

theorem le_getLast_of_sorted {l : List Int} {m : Int}
    (hs : l.Pairwise (· < ·)) (h : l.getLast? = some m) :
    ∀ x ∈ l, x ≤ m := by
  induction l with
  | nil => simp
  | cons a t ih =>
    rcases List.pairwise_cons.mp hs with ⟨ha, ht⟩
    intro x hx
    cases t with
    | nil =>
      rw [List.getLast?_singleton, Option.some.injEq] at h
      rcases List.mem_cons.mp hx with rfl | hx
      · omega
      · cases hx
    | cons b t' =>
      rw [List.getLast?_cons_cons] at h
      rcases List.mem_cons.mp hx with rfl | hx
      · have hm : m ∈ b :: t' := getLast?_mem h
        exact le_of_lt (ha m hm)
      · exact ih ht h x hx

theorem maxDtOf_spec (d : DT) (rest : List DT) :
    maxDtOf d rest ∈ d :: rest ∧
      ∀ x ∈ d :: rest, dtLe x (maxDtOf d rest) := by
  induction rest generalizing d with
  | nil =>
    refine ⟨List.mem_cons_self _ _, ?_⟩
    intro x hx
    rcases List.mem_cons.mp hx with rfl | hx
    · exact dtLe_refl x
    · cases hx
  | cons b t ih =>
    have hstep : maxDtOf d (b :: t) = maxDtOf (if dtLe d b then b else d) t := by
      simp only [maxDtOf, List.foldl_cons]
    by_cases hd : dtLe d b
    · rw [hstep, if_pos hd]
      rcases ih b with ⟨hmem, hmax⟩
      refine ⟨List.mem_cons_of_mem d hmem, ?_⟩
      intro x hx
      rcases List.mem_cons.mp hx with rfl | hx
      · exact dtLe_trans hd (hmax b (List.mem_cons_self b t))
      · exact hmax x hx
    · rw [hstep, if_neg hd]
      have hbd : dtLe b d := by
        rcases dtLe_total d b with h' | h'
        · exact absurd h' hd
        · exact h'
      rcases ih d with ⟨hmem, hmax⟩
      refine ⟨?_, ?_⟩
      · rcases List.mem_cons.mp hmem with h' | h'
        · rw [h']
          exact List.mem_cons_self _ _
        · exact List.mem_cons_of_mem d (List.mem_cons_of_mem b h')
      · intro x hx
        rcases List.mem_cons.mp hx with rfl | hx
        · exact hmax x (List.mem_cons_self x t)
        · rcases List.mem_cons.mp hx with rfl | hx
          · exact dtLe_trans hbd (hmax d (List.mem_cons_self d t))
          · exact hmax x (List.mem_cons_of_mem d hx)

theorem succYM_valid {k : YM} (h : validYM k) : validYM (succYM k) := by
  rcases k with ⟨y, m⟩
  simp only [validYM] at h
  simp only [succYM, validYM]
  by_cases hm : m ≥ 12
  · rw [if_pos hm]; constructor <;> simp
  · rw [if_neg hm]; constructor <;> simp <;> omega

theorem monthIdx_succYM {k : YM} (h : validYM k) :
    monthIdx (succYM k) = monthIdx k + 1 := by
  rcases k with ⟨y, m⟩
  simp only [validYM] at h
  simp only [succYM, monthIdx]
  by_cases hm : m ≥ 12
  · rw [if_pos hm]
    simp only
    omega
  · rw [if_neg hm]
    simp only
    omega

/-- The months accumulated so far survive into the loop's result. -/
theorem acc_subset_monthsLoop (fuel : Nat) (cur : YM) (endOpt : Option DT)
    (acc : List YM) {x : YM} (hx : x ∈ acc) :
    x ∈ monthsLoop fuel cur endOpt acc := by
  induction fuel generalizing cur acc with
  | zero => simpa [monthsLoop] using hx
  | succ fuel ih =>
    cases endOpt with
    | some e =>
      show x ∈
        (if dtLt e ⟨succYM cur, 0⟩ then (cur :: acc).reverse
         else monthsLoop fuel (succYM cur) (some e) (cur :: acc))
      by_cases hbr : dtLt e ⟨succYM cur, 0⟩
      · rw [if_pos hbr]
        simp [hx]
      · rw [if_neg hbr]
        exact ih (succYM cur) (cur :: acc) (List.mem_cons_of_mem cur hx)
    | none =>
      show x ∈
        (if (cur :: acc).length > 2400 then (cur :: acc).reverse
         else monthsLoop fuel (succYM cur) none (cur :: acc))
      by_cases hbr : (cur :: acc).length > 2400
      · rw [if_pos hbr]
        simp [hx]
      · rw [if_neg hbr]
        exact ih (succYM cur) (cur :: acc) (List.mem_cons_of_mem cur hx)

/-- Every real month between the cursor and `end`'s month is enumerated,
given enough fuel. -/
theorem mem_monthsLoop (fuel : Nat) (cur : YM) (e : DT) (acc : List YM)
    (k : YM) (hcur : validYM cur) (hk : validYM k) (he : validDT e)
    (h1 : monthIdx cur ≤ monthIdx k) (h2 : monthIdx k ≤ monthIdx e.ym)
    (hfuel : monthIdx e.ym < monthIdx cur + fuel) :
    k ∈ monthsLoop fuel cur (some e) acc := by
  induction fuel generalizing cur acc with
  | zero =>
    exfalso
    simp only [Nat.cast_zero, add_zero] at hfuel
    omega
  | succ fuel ih =>
    simp only [monthsLoop]
    by_cases hck : cur = k
    · subst hck
      by_cases hbr : dtLt e ⟨succYM cur, 0⟩
      · rw [if_pos hbr]
        simp
      · rw [if_neg hbr]
        exact acc_subset_monthsLoop fuel (succYM cur) (some e) (cur :: acc)
          (List.mem_cons_self cur acc)
    · have hlt : monthIdx cur < monthIdx k := by
        rcases lt_or_eq_of_le h1 with h' | h'
        · exact h'
        · exact absurd (monthIdx_inj hcur hk h') hck
      have hbr : ¬ dtLt e ⟨succYM cur, 0⟩ := by
        intro hbr
        rcases hbr with hbr | ⟨hbr, hbr'⟩
        · have hv : validYM (succYM cur) := succYM_valid hcur
          have hidx := (ymLt_iff_monthIdx ⟨he.1, he.2.1⟩ hv).mp hbr
          rw [monthIdx_succYM hcur] at hidx
          omega
        · have h0 : (0 : Int) ≤ e.sub := he.2.2
          have hbr2 : e.sub < 0 := hbr'
          omega
      rw [if_neg hbr]
      refine ih (succYM cur) (cur :: acc) (succYM_valid hcur) ?_ ?_
      · rw [monthIdx_succYM hcur]
        omega
      · rw [monthIdx_succYM hcur]
        push_cast at hfuel ⊢
        omega

theorem lookup_mem {s : BarStore} {k : YM} {v : List BarRow}
    (h : lookupPart s k = some v) : (k, v) ∈ s := by
  induction s with
  | nil => simp [lookupPart] at h
  | cons p s ih =>
    rcases p with ⟨k0, w⟩
    simp only [lookupPart] at h
    by_cases h0 : k0 = k
    · rw [if_pos h0] at h
      rw [Option.some.injEq] at h
      subst h0 h
      exact List.mem_cons_self _ _
    · rw [if_neg h0] at h
      exact List.mem_cons_of_mem _ (ih h)

theorem mem_storeSet {s : BarStore} {k : YM} {v : List BarRow}
    {p : YM × List BarRow} (h : p ∈ storeSet s k v) :
    p = (k, v) ∨ p ∈ s := by
  induction s with
  | nil =>
    simp only [storeSet, List.mem_singleton] at h
    exact Or.inl h
  | cons q s ih =>
    rcases q with ⟨k0, w⟩
    simp only [storeSet] at h
    by_cases h0 : k0 = k
    · rw [if_pos h0] at h
      rcases List.mem_cons.mp h with rfl | h
      · exact Or.inl rfl
      · exact Or.inr (List.mem_cons_of_mem _ h)
    · rw [if_neg h0] at h
      rcases List.mem_cons.mp h with rfl | h
      · exact Or.inr (List.mem_cons_self _ _)
      · rcases ih h with h' | h'
        · exact Or.inl h'
        · exact Or.inr (List.mem_cons_of_mem _ h')

theorem nodup_keys_storeSet {s : BarStore} {k : YM} {v : List BarRow}
    (h : (s.map Prod.fst).Nodup) :
    ((storeSet s k v).map Prod.fst).Nodup := by
  induction s with
  | nil => simp [storeSet]
  | cons p s ih =>
    rcases p with ⟨k0, w⟩
    simp only [List.map_cons, List.nodup_cons] at h
    simp only [storeSet]
    by_cases h0 : k0 = k
    · rw [if_pos h0]
      simp only [List.map_cons, List.nodup_cons]
      exact ⟨h0 ▸ h.1, h.2⟩
    · rw [if_neg h0]
      simp only [List.map_cons, List.nodup_cons]
      refine ⟨?_, ih h.2⟩
      intro hk0
      rcases keys_storeSet_subset hk0 with h' | h'
      · exact h0 h'
      · exact h.1 h'

/-- `parquet_upsert` on a single-row dataframe: rewrite exactly the
partition of that row's month. -/
theorem upsert_single (s : BarStore) (b : BarRow) :
    parquet_upsert s [b] =
      (storeSet s b.dt.ym
        (match lookupPart s b.dt.ym with
         | some existing => sortByDt (dedupKeepLast (existing ++ [b]))
         | none => [b]),
       (match lookupPart s b.dt.ym with
        | some existing => sortByDt (dedupKeepLast (existing ++ [b]))
        | none => [b]).length) := by
  have hmono : isMonotonicByDt [b] = true := rfl
  have hnorm : normalizeColumns [b] = [b] := by
    simp [normalizeColumns, hmono]
  have hkeys : groupKeys [b] = [b.dt.ym] := rfl
  have hfilter : [b].filter (fun r => decide (r.dt.ym = b.dt.ym)) = [b] := by
    simp
  simp only [parquet_upsert, hnorm, hkeys, List.foldl_cons, List.foldl_nil,
    hfilter, Nat.zero_add]

/-- The merged partition after upserting one bar holds exactly that bar
at the bar's timestamp. -/
theorem filter_combined_single (ex : List BarRow) (b : BarRow) :
    (sortByDt (dedupKeepLast (ex ++ [b]))).filter
        (fun r => decide (r.dt = b.dt)) = [b] := by
  have hmem : b ∈ dedupKeepLast (ex ++ [b]) := by
    rw [mem_dedupKeepLast_iff, List.filter_append]
    have h1 : [b].filter (fun y => decide (y.dt = b.dt)) = [b] := by simp
    rw [h1, List.getLast?_append]
    simp
  have hpair := dedupKeepLast_pairwise_ne (ex ++ [b])
  have hfilter := filter_eq_singleton_of_pairwise_ne hpair hmem
  have hperm :
      ((sortByDt (dedupKeepLast (ex ++ [b]))).filter
        (fun r => decide (r.dt = b.dt))).Perm
        ((dedupKeepLast (ex ++ [b])).filter (fun r => decide (r.dt = b.dt))) :=
    (sortByDt_perm _).filter _
  rw [hfilter] at hperm
  exact List.perm_singleton.mp hperm

/-- After `parquet_upsert s [b]`, the partition of `b`'s month holds
exactly `b` at timestamp `b.dt`. -/
theorem upsert_single_lookup (s : BarStore) (b : BarRow) :
    ∃ c, lookupPart (parquet_upsert s [b]).1 b.dt.ym = some c ∧
      c.filter (fun r => decide (r.dt = b.dt)) = [b] := by
  rw [upsert_single]
  cases hlk : lookupPart s b.dt.ym with
  | none =>
    refine ⟨[b], ?_, by simp⟩
    simp only [hlk]
    exact lookup_storeSet_self s b.dt.ym [b]
  | some ex =>
    refine ⟨sortByDt (dedupKeepLast (ex ++ [b])), ?_, filter_combined_single ex b⟩
    simp only [hlk]
    exact lookup_storeSet_self s b.dt.ym _

/-- Other months' partitions are untouched by a single-bar upsert. -/
theorem upsert_single_lookup_other (s : BarStore) (b : BarRow) {k : YM}
    (h : k ≠ b.dt.ym) :
    lookupPart (parquet_upsert s [b]).1 k = lookupPart s k := by
  rw [upsert_single]
  exact lookup_storeSet_other s _ (fun he => h he.symm)

/-- A single-bar upsert preserves the store invariant. -/
theorem upsert_single_WF {s : BarStore} (b : BarRow) (h : storeWF s) :
    storeWF (parquet_upsert s [b]).1 := by
  rcases h with ⟨hnd, hrows⟩
  rw [upsert_single]
  constructor
  · exact nodup_keys_storeSet hnd
  · intro p hp r hr
    rcases mem_storeSet hp with rfl | hp'
    · simp only
      rcases hlk : lookupPart s b.dt.ym with _ | ex
      · simp only [hlk] at hr
        simp only [List.mem_singleton] at hr
        rw [hr]
      · simp only [hlk] at hr
        have hr' := mem_of_mem_dedupKeepLast ((sortByDt_perm _).mem_iff.mp hr)
        rcases List.mem_append.mp hr' with hr'' | hr''
        · exact hrows (b.dt.ym, ex) (lookup_mem hlk) r hr''
        · simp only [List.mem_singleton] at hr''
          rw [hr'']
    · exact hrows p hp' r hr

theorem mem_of_mem_dedup_sort {x : BarRow} {l : List BarRow}
    (h : x ∈ dedupKeepLast (sortByDt l)) : x ∈ l :=
  (sortByDt_perm l).mem_iff.mp (mem_of_mem_dedupKeepLast h)

theorem dedup_sort_strict (l : List BarRow) :
    (dedupKeepLast (sortByDt l)).Pairwise (fun a b => dtLt a.dt b.dt) :=
  dedupKeepLast_strict (sortByDt_sorted l)

/-- C3.  Postcondition of every `load_range` call: the returned bar
sequence is sorted strictly ascending by timestamp (hence contains no
two bars with equal timestamps), and when `start` and/or `end` are
given, no returned bar lies strictly before `start` or strictly after
`end` (the `[start, end]` filter is inclusive at both bounds). -/
theorem C3_load_range_postcondition (s : BarStore) (so eo : Option DT)
    (l : List BarRow) (h : parquet_load_range s so eo = .ok l) :
    l.Pairwise (fun a b => dtLt a.dt b.dt) ∧
      ∀ r ∈ l,
        (∀ st, so = some st → dtLe st r.dt) ∧
        (∀ en, eo = some en → dtLe r.dt en) := by
  cases so with
  | none =>
    cases eo with
    | none =>
      simp only [parquet_load_range] at h
      rw [if_neg Bool.false_ne_true, Except.ok.injEq] at h
      subst h
      refine ⟨dedup_sort_strict _, ?_⟩
      intro r hr
      constructor
      · intro st hst
        cases hst
      · intro en hen
        cases hen
    | some en =>
      simp only [parquet_load_range] at h
      rw [if_neg Bool.false_ne_true, Except.ok.injEq] at h
      subst h
      refine ⟨dedup_sort_strict _, ?_⟩
      intro r hr
      have hr2 := List.mem_filter.mp (mem_of_mem_dedup_sort hr)
      constructor
      · intro st hst
        cases hst
      · intro en' hen
        rw [Option.some.injEq] at hen
        subst hen
        exact of_decide_eq_true hr2.2
  | some st =>
    cases eo with
    | none =>
      simp only [parquet_load_range] at h
      rw [if_neg Bool.false_ne_true, Except.ok.injEq] at h
      subst h
      refine ⟨dedup_sort_strict _, ?_⟩
      intro r hr
      have hr2 := List.mem_filter.mp (mem_of_mem_dedup_sort hr)
      constructor
      · intro st' hst
        rw [Option.some.injEq] at hst
        subst hst
        exact of_decide_eq_true hr2.2
      · intro en hen
        cases hen
    | some en =>
      by_cases hlt : dtLt en st
      · simp only [parquet_load_range, decide_eq_true hlt, if_true] at h
        cases h
      · simp only [parquet_load_range, decide_eq_false hlt] at h
        rw [if_neg Bool.false_ne_true, Except.ok.injEq] at h
        subst h
        refine ⟨dedup_sort_strict _, ?_⟩
        intro r hr
        have h2 := List.mem_filter.mp (mem_of_mem_dedup_sort hr)
        have h1 := List.mem_filter.mp h2.1
        refine ⟨fun st' hst => ?_, fun en' hen => ?_⟩
        · rw [Option.some.injEq] at hst
          subst hst
          exact of_decide_eq_true h1.2
        · rw [Option.some.injEq] at hen
          subst hen
          exact of_decide_eq_true h2.2

/-- Witness for C3 on a concrete store: one partition for 2024-01 with a
single row, queried over a concrete inclusive range. -/
theorem C3_load_range_postcondition_witness :
    ([⟨⟨(2024, 1), 5⟩, 1, 2, 0, 1, 3⟩] : List BarRow).Pairwise
        (fun a b => dtLt a.dt b.dt) ∧
      ∀ r ∈ ([⟨⟨(2024, 1), 5⟩, 1, 2, 0, 1, 3⟩] : List BarRow),
        (∀ st, (some ⟨(2024, 1), 0⟩ : Option DT) = some st → dtLe st r.dt) ∧
        (∀ en, (some ⟨(2024, 1), 10⟩ : Option DT) = some en → dtLe r.dt en) :=
  C3_load_range_postcondition
    [((2024, 1), [⟨⟨(2024, 1), 5⟩, 1, 2, 0, 1, 3⟩])]
    (some ⟨(2024, 1), 0⟩) (some ⟨(2024, 1), 10⟩)
    [⟨⟨(2024, 1), 5⟩, 1, 2, 0, 1, 3⟩] (by rfl)

theorem filterMap_lookup_nil (ms : List YM) :
    ms.filterMap (fun k => lookupPart ([] : BarStore) k) = [] := by
  induction ms with
  | nil => rfl
  | cons m ms ih => simp [List.filterMap_cons, lookupPart, ih]

theorem mem_load_parts {s : BarStore} {months : List YM} {r : BarRow}
    (hr : r ∈ (months.filterMap (fun k => lookupPart s k)).flatten) :
    ∃ p ∈ s, r ∈ p.2 := by
  rcases List.mem_flatten.mp hr with ⟨part, hpart, hrpart⟩
  rcases List.mem_filterMap.mp hpart with ⟨k, _, hlk⟩
  exact ⟨(k, part), lookup_mem hlk, hrpart⟩

theorem dedup_sort_of_nil {df : List BarRow} (h : df = []) :
    dedupKeepLast (sortByDt df) = [] := by
  rw [h]
  rfl

/-- C9.  `load_range` error branches: with both bounds given and
`start > end` it fails with the range error — and, since the right-hand
side of the characterization below does not mention the store state,
the failure is decided before any partition is read.  In every other
configuration it returns an `ok` result (a missing partition file is
never an error); it returns the empty dataframe on a store with no
partitions, and likewise whenever no stored bar matches the requested
`[start, end]` range. -/
theorem C9_load_range_error_branches (s : BarStore) (so eo : Option DT) :
    (parquet_load_range s so eo = .error .rangeError ↔
      ∃ st en, so = some st ∧ eo = some en ∧ dtLt en st) ∧
    ((¬ ∃ st en, so = some st ∧ eo = some en ∧ dtLt en st) →
      ∃ l, parquet_load_range s so eo = .ok l) ∧
    (s = [] → (¬ ∃ st en, so = some st ∧ eo = some en ∧ dtLt en st) →
      parquet_load_range s so eo = .ok []) ∧
    ((¬ ∃ st en, so = some st ∧ eo = some en ∧ dtLt en st) →
      (∀ p ∈ s, ∀ r ∈ p.2, ¬ matchesRange so eo r.dt) →
      parquet_load_range s so eo = .ok []) := by
  cases so with
  | none =>
    cases eo with
    | none =>
      refine ⟨?_, ?_, ?_, ?_⟩
      · constructor
        · intro h
          simp only [parquet_load_range] at h
          rw [if_neg Bool.false_ne_true] at h
          cases h
        · rintro ⟨st, en, hst, hen, hlt⟩
          cases hst
      · intro hne
        simp only [parquet_load_range]
        rw [if_neg Bool.false_ne_true]
        exact ⟨_, rfl⟩
      · rintro rfl hne
        simp only [parquet_load_range]
        rw [if_neg Bool.false_ne_true]
        rw [filterMap_lookup_nil]
        rfl
      · intro hne hnm
        simp only [parquet_load_range]
        rw [if_neg Bool.false_ne_true, Except.ok.injEq]
        apply dedup_sort_of_nil
        apply List.eq_nil_iff_forall_not_mem.mpr
        intro r hr
        rcases mem_load_parts hr with ⟨p, hp, hrp⟩
        exact hnm p hp r hrp ⟨trivial, trivial⟩
    | some en =>
      refine ⟨?_, ?_, ?_, ?_⟩
      · constructor
        · intro h
          simp only [parquet_load_range] at h
          rw [if_neg Bool.false_ne_true] at h
          cases h
        · rintro ⟨st, en', hst, hen, hlt⟩
          cases hst
      · intro hne
        simp only [parquet_load_range]
        rw [if_neg Bool.false_ne_true]
        exact ⟨_, rfl⟩
      · rintro rfl hne
        simp only [parquet_load_range]
        rw [if_neg Bool.false_ne_true]
        rw [filterMap_lookup_nil]
        rfl
      · intro hne hnm
        simp only [parquet_load_range]
        rw [if_neg Bool.false_ne_true, Except.ok.injEq]
        apply dedup_sort_of_nil
        apply List.eq_nil_iff_forall_not_mem.mpr
        intro r hr
        rcases List.mem_filter.mp hr with ⟨hr0, hrb⟩
        rcases mem_load_parts hr0 with ⟨p, hp, hrp⟩
        exact hnm p hp r hrp ⟨trivial, of_decide_eq_true hrb⟩
  | some st =>
    cases eo with
    | none =>
      refine ⟨?_, ?_, ?_, ?_⟩
      · constructor
        · intro h
          simp only [parquet_load_range] at h
          rw [if_neg Bool.false_ne_true] at h
          cases h
        · rintro ⟨st', en, hst, hen, hlt⟩
          cases hen
      · intro hne
        simp only [parquet_load_range]
        rw [if_neg Bool.false_ne_true]
        exact ⟨_, rfl⟩
      · rintro rfl hne
        simp only [parquet_load_range]
        rw [if_neg Bool.false_ne_true]
        rw [filterMap_lookup_nil]
        rfl
      · intro hne hnm
        simp only [parquet_load_range]
        rw [if_neg Bool.false_ne_true, Except.ok.injEq]
        apply dedup_sort_of_nil
        apply List.eq_nil_iff_forall_not_mem.mpr
        intro r hr
        rcases List.mem_filter.mp hr with ⟨hr0, hrb⟩
        rcases mem_load_parts hr0 with ⟨p, hp, hrp⟩
        exact hnm p hp r hrp ⟨of_decide_eq_true hrb, trivial⟩
    | some en =>
      by_cases hlt : dtLt en st
      · refine ⟨?_, ?_, ?_, ?_⟩
        · constructor
          · intro _
            exact ⟨st, en, rfl, rfl, hlt⟩
          · intro _
            simp only [parquet_load_range, decide_eq_true hlt, if_true]
        · intro hne
          exfalso
          exact hne ⟨st, en, rfl, rfl, hlt⟩
        · rintro rfl hne
          exfalso
          exact hne ⟨st, en, rfl, rfl, hlt⟩
        · intro hne hnm
          exfalso
          exact hne ⟨st, en, rfl, rfl, hlt⟩
      · refine ⟨?_, ?_, ?_, ?_⟩
        · constructor
          · intro h
            simp only [parquet_load_range, decide_eq_false hlt] at h
            rw [if_neg Bool.false_ne_true] at h
            cases h
          · rintro ⟨st', en', hst, hen, hlt'⟩
            rw [Option.some.injEq] at hst hen
            subst hst
            subst hen
            exact absurd hlt' hlt
        · intro hne
          simp only [parquet_load_range, decide_eq_false hlt]
          rw [if_neg Bool.false_ne_true]
          exact ⟨_, rfl⟩
        · rintro rfl hne
          simp only [parquet_load_range, decide_eq_false hlt]
          rw [if_neg Bool.false_ne_true]
          rw [filterMap_lookup_nil]
          rfl
        · intro hne hnm
          simp only [parquet_load_range, decide_eq_false hlt]
          rw [if_neg Bool.false_ne_true, Except.ok.injEq]
          apply dedup_sort_of_nil
          apply List.eq_nil_iff_forall_not_mem.mpr
          intro r hr
          rcases List.mem_filter.mp hr with ⟨hr1, hrb2⟩
          rcases List.mem_filter.mp hr1 with ⟨hr0, hrb1⟩
          rcases mem_load_parts hr0 with ⟨p, hp, hrp⟩
          exact hnm p hp r hrp
            ⟨of_decide_eq_true hrb1, of_decide_eq_true hrb2⟩

/-- Witness for C9 at concrete configurations: `start > end` on a
nonempty store errors; the empty store loads to an empty frame; and a
store whose only stored bar lies before the queried range also loads to
an empty frame. -/
theorem C9_load_range_error_branches_witness :
    (parquet_load_range
        [((2024, 1), [⟨⟨(2024, 1), 5⟩, 1, 2, 0, 1, 3⟩])]
        (some ⟨(2024, 2), 0⟩) (some ⟨(2024, 1), 0⟩) = .error .rangeError) ∧
    (parquet_load_range ([] : BarStore)
        (some ⟨(2024, 1), 0⟩) (some ⟨(2024, 1), 10⟩) = .ok []) ∧
    (parquet_load_range
        [((2024, 1), [⟨⟨(2024, 1), 5⟩, 1, 2, 0, 1, 3⟩])]
        (some ⟨(2024, 2), 0⟩) (some ⟨(2024, 3), 0⟩) = .ok []) :=
  ⟨(C9_load_range_error_branches
      [((2024, 1), [⟨⟨(2024, 1), 5⟩, 1, 2, 0, 1, 3⟩])]
      (some ⟨(2024, 2), 0⟩) (some ⟨(2024, 1), 0⟩)).1.mpr
      ⟨⟨(2024, 2), 0⟩, ⟨(2024, 1), 0⟩, rfl, rfl, by decide⟩,
   (C9_load_range_error_branches ([] : BarStore)
      (some ⟨(2024, 1), 0⟩) (some ⟨(2024, 1), 10⟩)).2.2.1 rfl
      (by rintro ⟨st, en, hst, hen, hlt⟩
          rw [Option.some.injEq] at hst hen
          subst hst
          subst hen
          exact absurd hlt (by decide)),
   (C9_load_range_error_branches
      [((2024, 1), [⟨⟨(2024, 1), 5⟩, 1, 2, 0, 1, 3⟩])]
      (some ⟨(2024, 2), 0⟩) (some ⟨(2024, 3), 0⟩)).2.2.2
      (by rintro ⟨st, en, hst, hen, hlt⟩
          rw [Option.some.injEq] at hst hen
          subst hst
          subst hen
          exact absurd hlt (by decide))
      (by decide)⟩

theorem lookup_isSome_of_mem_keys {s : BarStore} {k : YM}
    (h : k ∈ s.map Prod.fst) : ∃ v, lookupPart s k = some v := by
  induction s with
  | nil => simp at h
  | cons p s ih =>
    rcases p with ⟨k0, w⟩
    simp only [List.map_cons, List.mem_cons] at h
    by_cases h0 : k0 = k
    · refine ⟨w, ?_⟩
      simp only [lookupPart]
      rw [if_pos h0]
    · rcases h with rfl | h
      · exact absurd rfl h0
      · rcases ih h with ⟨v, hv⟩
        refine ⟨v, ?_⟩
        simp only [lookupPart]
        rw [if_neg h0]
        exact hv

/-- On a nonempty store with nonempty partitions,
`get_last_timestamp` returns the maximum timestamp of the partition with
the largest `(year, month)` key. -/
theorem get_last_spec {s : BarStore}
    (hne : ∀ p ∈ s, p.2 ≠ []) (hs : s ≠ []) :
    ∃ k rows t, lookupPart s k = some rows ∧
      (∀ k' ∈ s.map Prod.fst, ymLe k' k) ∧
      parquet_get_last_timestamp s = some t ∧
      t ∈ rows.map (fun r => r.dt) ∧ ∀ r ∈ rows, dtLe r.dt t := by
  rcases List.exists_mem_of_ne_nil s hs with ⟨p0, hp0⟩
  have hy0 : p0.1.1 ∈ sortedDistinct (s.map (fun p => p.1.1)) := by
    rw [mem_sortedDistinct]
    exact List.mem_map_of_mem _ hp0
  rcases hly : (sortedDistinct (s.map (fun p => p.1.1))).getLast? with _ | ly
  · rw [List.getLast?_eq_none_iff] at hly
    rw [hly] at hy0
    cases hy0
  · have hlymax : ∀ y ∈ s.map (fun p => p.1.1), y ≤ ly := by
      intro y hy
      exact le_getLast_of_sorted (sortedDistinct_sorted _) hly y
        (mem_sortedDistinct.mpr hy)
    have hm0 : p0.1.1 ≤ ly := hlymax _ (List.mem_map_of_mem _ hp0)
    have hlymem : ly ∈ s.map (fun p => p.1.1) :=
      mem_sortedDistinct.mp (getLast?_mem hly)
    rcases hlm : (sortedDistinct
        ((s.filter (fun p => decide (p.1.1 = ly))).map
          (fun p => p.1.2))).getLast? with _ | lm
    · exfalso
      rcases List.mem_map.mp hlymem with ⟨q0, hq0, hq0y⟩
      have : q0.1.2 ∈ sortedDistinct
          ((s.filter (fun p => decide (p.1.1 = ly))).map (fun p => p.1.2)) := by
        rw [mem_sortedDistinct]
        exact List.mem_map_of_mem _
          (List.mem_filter.mpr ⟨hq0, decide_eq_true hq0y⟩)
      rw [List.getLast?_eq_none_iff] at hlm
      rw [hlm] at this
      cases this
    · have hlmmax : ∀ m ∈ (s.filter (fun p => decide (p.1.1 = ly))).map
          (fun p => p.1.2), m ≤ lm := by
        intro m hm
        exact le_getLast_of_sorted (sortedDistinct_sorted _) hlm m
          (mem_sortedDistinct.mpr hm)
      have hlmmem : lm ∈ (s.filter (fun p => decide (p.1.1 = ly))).map
          (fun p => p.1.2) :=
        mem_sortedDistinct.mp (getLast?_mem hlm)
      rcases List.mem_map.mp hlmmem with ⟨q1, hq1, hq1m⟩
      have hq1' := List.mem_filter.mp hq1
      have hq1y : q1.1.1 = ly := of_decide_eq_true hq1'.2
      have hq1key : q1.1 = (ly, lm) := by
        rcases q1 with ⟨⟨a, b⟩, v⟩
        simp only at hq1y hq1m
        rw [hq1y, hq1m]
      have hkey : (ly, lm) ∈ s.map Prod.fst := by
        have h' : q1.1 ∈ s.map Prod.fst := List.mem_map_of_mem _ hq1'.1
        rw [hq1key] at h'
        exact h'
      rcases lookup_isSome_of_mem_keys hkey with ⟨rows, hrows⟩
      have hrowsne : rows ≠ [] := hne _ (lookup_mem hrows)
      have hmax : ∀ k' ∈ s.map Prod.fst, ymLe k' (ly, lm) := by
        intro k' hk'
        rcases List.mem_map.mp hk' with ⟨q, hq, hqk⟩
        have hyle : k'.1 ≤ ly := by
          have := hlymax q.1.1 (List.mem_map_of_mem _ hq)
          rw [hqk] at this
          exact this
        rcases lt_or_eq_of_le hyle with hylt | hyeq
        · exact Or.inl hylt
        · refine Or.inr ⟨hyeq, ?_⟩
          have hqf : q ∈ s.filter (fun p => decide (p.1.1 = ly)) := by
            refine List.mem_filter.mpr ⟨hq, decide_eq_true ?_⟩
            rw [← hyeq, hqk]
          have := hlmmax q.1.2 (List.mem_map_of_mem _ hqf)
          rw [hqk] at this
          exact this
      rcases hmap : rows.map (fun r => r.dt) with _ | ⟨d, ds⟩
      · exfalso
        rw [List.map_eq_nil_iff] at hmap
        exact hrowsne hmap
      · refine ⟨(ly, lm), rows, maxDtOf d ds, hrows, hmax, ?_, ?_, ?_⟩
        · simp only [parquet_get_last_timestamp, hly, hlm, hrows, hmap]
        · rw [hmap]
          exact (maxDtOf_spec d ds).1
        · intro r hr
          have : r.dt ∈ rows.map (fun x => x.dt) := List.mem_map_of_mem _ hr
          rw [hmap] at this
          exact (maxDtOf_spec d ds).2 r.dt this

/-- C8.  `get_last_timestamp` contract: on any store whose partitions
are nonempty (as `upsert` guarantees), it returns `none` iff no
partition exists, and otherwise the maximum timestamp within the
lexicographically last `(year, month)` partition. -/
theorem C8_get_last_timestamp (s : BarStore)
    (hne : ∀ p ∈ s, p.2 ≠ []) :
    (parquet_get_last_timestamp s = none ↔ s = []) ∧
    ∀ k rows, lookupPart s k = some rows →
      (∀ k' ∈ s.map Prod.fst, ymLe k' k) →
      ∃ t, parquet_get_last_timestamp s = some t ∧
        t ∈ rows.map (fun r => r.dt) ∧ ∀ r ∈ rows, dtLe r.dt t := by
  constructor
  · constructor
    · intro h
      by_contra hs
      rcases get_last_spec hne hs with ⟨k0, rows0, t, _, _, hres, _, _⟩
      rw [h] at hres
      cases hres
    · rintro rfl
      rfl
  · intro k rows hlk hkmax
    have hs : s ≠ [] := by
      intro h
      rw [h] at hlk
      cases hlk
    rcases get_last_spec hne hs with ⟨k0, rows0, t, hlk0, hmax0, hres, hmem, hub⟩
    have hk0k : k0 = k :=
      ymLe_antisymm
        (hkmax k0 (List.mem_map_of_mem _ (lookup_mem hlk0)))
        (hmax0 k (List.mem_map_of_mem _ (lookup_mem hlk)))
    subst hk0k
    rw [hlk] at hlk0
    rw [Option.some.injEq] at hlk0
    subst hlk0
    exact ⟨t, hres, hmem, hub⟩

/-- Witness for C8 on a two-partition store: the last partition is
2024-02 and the maximum timestamp inside it is returned. -/
theorem C8_get_last_timestamp_witness :
    (parquet_get_last_timestamp
        [((2024, 1), [⟨⟨(2024, 1), 5⟩, 1, 1, 1, 1, 1⟩]),
         ((2024, 2), [⟨⟨(2024, 2), 3⟩, 1, 1, 1, 1, 1⟩,
                      ⟨⟨(2024, 2), 9⟩, 2, 2, 2, 2, 2⟩])] = none ↔
      ([((2024, 1), [⟨⟨(2024, 1), 5⟩, 1, 1, 1, 1, 1⟩]),
        ((2024, 2), [⟨⟨(2024, 2), 3⟩, 1, 1, 1, 1, 1⟩,
                     ⟨⟨(2024, 2), 9⟩, 2, 2, 2, 2, 2⟩])] : BarStore) = []) ∧
    ∀ k rows, lookupPart
        [((2024, 1), [⟨⟨(2024, 1), 5⟩, 1, 1, 1, 1, 1⟩]),
         ((2024, 2), [⟨⟨(2024, 2), 3⟩, 1, 1, 1, 1, 1⟩,
                      ⟨⟨(2024, 2), 9⟩, 2, 2, 2, 2, 2⟩])] k = some rows →
      (∀ k' ∈ ([((2024, 1), [⟨⟨(2024, 1), 5⟩, 1, 1, 1, 1, 1⟩]),
         ((2024, 2), [⟨⟨(2024, 2), 3⟩, 1, 1, 1, 1, 1⟩,
                      ⟨⟨(2024, 2), 9⟩, 2, 2, 2, 2, 2⟩])] : BarStore).map
          Prod.fst, ymLe k' k) →
      ∃ t, parquet_get_last_timestamp
          [((2024, 1), [⟨⟨(2024, 1), 5⟩, 1, 1, 1, 1, 1⟩]),
           ((2024, 2), [⟨⟨(2024, 2), 3⟩, 1, 1, 1, 1, 1⟩,
                        ⟨⟨(2024, 2), 9⟩, 2, 2, 2, 2, 2⟩])] = some t ∧
        t ∈ rows.map (fun r => r.dt) ∧ ∀ r ∈ rows, dtLe r.dt t :=
  C8_get_last_timestamp _ (by decide)

theorem getLast?_of_all_eq {α : Type} {l : List α} {a : α}
    (hne : l ≠ []) (hall : ∀ x ∈ l, x = a) : l.getLast? = some a := by
  induction l with
  | nil => exact absurd rfl hne
  | cons x xs ih =>
    cases hxs : xs with
    | nil =>
      rw [List.getLast?_singleton, Option.some.injEq]
      exact hall x (List.mem_cons_self x xs)
    | cons y ys =>
      rw [← hxs, getLast?_cons_of_ne_nil (by rw [hxs]; exact List.cons_ne_nil y ys)]
      refine ih (by rw [hxs]; exact List.cons_ne_nil y ys) ?_
      intro z hz
      exact hall z (List.mem_cons_of_mem x hz)

/-- C1.  Newest-wins merge: after `upsert([bar@T=v1])` then
`upsert([bar@T=v2])` on any well-formed store, `load_range` over any
valid range containing `T` returns exactly one bar at `T`, and that bar
is the one from the later upsert. -/
theorem C1_newest_wins (s : BarStore) (hwf : storeWF s)
    (b1 b2 : BarRow) (T : DT) (hT : validDT T)
    (h1 : b1.dt = T) (h2 : b2.dt = T)
    (st en : DT) (hst : validDT st) (hen : validDT en)
    (hstT : dtLe st T) (hTen : dtLe T en) :
    ∃ l, parquet_load_range
        (parquet_upsert (parquet_upsert s [b1]).1 [b2]).1
        (some st) (some en) = .ok l ∧
      l.filter (fun r => decide (r.dt = T)) = [b2] := by
  subst h2
  have hwf2 : storeWF (parquet_upsert (parquet_upsert s [b1]).1 [b2]).1 :=
    upsert_single_WF b2 (upsert_single_WF b1 hwf)
  have hnotlt : ¬ dtLt en st :=
    not_dtLt_iff.mpr (dtLe_trans hstT hTen)
  simp only [parquet_load_range, decide_eq_false hnotlt]
  rw [if_neg Bool.false_ne_true]
  refine ⟨_, rfl, ?_⟩
  rcases upsert_single_lookup (parquet_upsert s [b1]).1 b2 with ⟨c, hc, hcf⟩
  have hb2c : b2 ∈ c := by
    have hmem : b2 ∈ c.filter (fun r => decide (r.dt = b2.dt)) := by
      rw [hcf]
      exact List.mem_singleton_self b2
    exact (List.mem_filter.mp hmem).1
  have hTym : b2.dt.ym ∈
      monthsLoop (monthsFuel st.ym (some en)) st.ym (some en) [] := by
    refine mem_monthsLoop _ _ _ _ _ ⟨hst.1, hst.2.1⟩ ⟨hT.1, hT.2.1⟩ hen ?_ ?_ ?_
    · exact monthIdx_le_of_ymLe ⟨hst.1, hst.2.1⟩ ⟨hT.1, hT.2.1⟩
        (ymLe_of_dtLe hstT)
    · exact monthIdx_le_of_ymLe ⟨hT.1, hT.2.1⟩ ⟨hen.1, hen.2.1⟩
        (ymLe_of_dtLe hTen)
    · have hle1 : monthIdx st.ym ≤ monthIdx b2.dt.ym :=
        monthIdx_le_of_ymLe ⟨hst.1, hst.2.1⟩ ⟨hT.1, hT.2.1⟩ (ymLe_of_dtLe hstT)
      have hle2 : monthIdx b2.dt.ym ≤ monthIdx en.ym :=
        monthIdx_le_of_ymLe ⟨hT.1, hT.2.1⟩ ⟨hen.1, hen.2.1⟩ (ymLe_of_dtLe hTen)
      simp only [monthsFuel]
      push_cast
      omega
  have hcP : c ∈
      (monthsLoop (monthsFuel st.ym (some en)) st.ym (some en) []).filterMap
        (fun k => lookupPart (parquet_upsert (parquet_upsert s [b1]).1 [b2]).1 k) :=
    List.mem_filterMap.mpr ⟨b2.dt.ym, hTym, hc⟩
  have hb2df0 : b2 ∈
      ((monthsLoop (monthsFuel st.ym (some en)) st.ym (some en) []).filterMap
        (fun k => lookupPart (parquet_upsert (parquet_upsert s [b1]).1 [b2]).1 k)).flatten :=
    List.mem_flatten.mpr ⟨c, hcP, hb2c⟩
  have huniq : ∀ r ∈
      ((monthsLoop (monthsFuel st.ym (some en)) st.ym (some en) []).filterMap
        (fun k => lookupPart (parquet_upsert (parquet_upsert s [b1]).1 [b2]).1 k)).flatten,
      r.dt = b2.dt → r = b2 := by
    intro r hr hrdt
    rcases List.mem_flatten.mp hr with ⟨part, hpart, hrpart⟩
    rcases List.mem_filterMap.mp hpart with ⟨k', hk', hlk'⟩
    have hkym : r.dt.ym = k' :=
      hwf2.2 (k', part) (lookup_mem hlk') r hrpart
    have hk'T : k' = b2.dt.ym := by
      rw [← hkym, hrdt]
    rw [hk'T] at hlk'
    rw [hc] at hlk'
    rw [Option.some.injEq] at hlk'
    subst hlk'
    have hrf : r ∈ c.filter (fun x => decide (x.dt = b2.dt)) :=
      List.mem_filter.mpr ⟨hrpart, decide_eq_true hrdt⟩
    rw [hcf] at hrf
    exact List.mem_singleton.mp hrf
  set df0 :=
    ((monthsLoop (monthsFuel st.ym (some en)) st.ym (some en) []).filterMap
      (fun k => lookupPart (parquet_upsert (parquet_upsert s [b1]).1 [b2]).1 k)).flatten
    with hdf0
  set df2 :=
    (df0.filter (fun r => decide (dtLe st r.dt))).filter
      (fun r => decide (dtLe r.dt en)) with hdf2
  have hb2df2 : b2 ∈ df2 := by
    rw [hdf2]
    exact List.mem_filter.mpr
      ⟨List.mem_filter.mpr ⟨hb2df0, decide_eq_true hstT⟩, decide_eq_true hTen⟩
  have huniq2 : ∀ r ∈ df2, r.dt = b2.dt → r = b2 := by
    intro r hr hrdt
    rw [hdf2] at hr
    exact huniq r (List.mem_filter.mp (List.mem_filter.mp hr).1).1 hrdt
  have hall : ∀ x ∈ (sortByDt df2).filter (fun r => decide (r.dt = b2.dt)),
      x = b2 := by
    intro x hx
    rcases List.mem_filter.mp hx with ⟨hx1, hx2⟩
    exact huniq2 x ((sortByDt_perm df2).mem_iff.mp hx1) (of_decide_eq_true hx2)
  have hfne : b2 ∈ (sortByDt df2).filter (fun r => decide (r.dt = b2.dt)) :=
    List.mem_filter.mpr
      ⟨(sortByDt_perm df2).mem_iff.mpr hb2df2, decide_eq_true rfl⟩
  have hlast : ((sortByDt df2).filter
      (fun r => decide (r.dt = b2.dt))).getLast? = some b2 :=
    getLast?_of_all_eq (List.ne_nil_of_mem hfne) hall
  have hb2l : b2 ∈ dedupKeepLast (sortByDt df2) :=
    mem_dedupKeepLast_iff.mpr hlast
  exact filter_eq_singleton_of_pairwise_ne
    (dedupKeepLast_pairwise_ne (sortByDt df2)) hb2l

/-- Witness for C1: two upserts at the same timestamp into an empty
store; the queried range returns exactly the second bar. -/
theorem C1_newest_wins_witness :
    ∃ l, parquet_load_range
        (parquet_upsert
          (parquet_upsert ([] : BarStore)
            [⟨⟨(2024, 1), 5⟩, 1, 1, 1, 1, 1⟩]).1
          [⟨⟨(2024, 1), 5⟩, 2, 2, 2, 2, 2⟩]).1
        (some ⟨(2024, 1), 0⟩) (some ⟨(2024, 1), 10⟩) = .ok l ∧
      l.filter (fun r => decide (r.dt = ⟨(2024, 1), 5⟩)) =
        [⟨⟨(2024, 1), 5⟩, 2, 2, 2, 2, 2⟩] :=
  C1_newest_wins ([] : BarStore)
    ⟨List.nodup_nil, by intro p hp; cases hp⟩
    ⟨⟨(2024, 1), 5⟩, 1, 1, 1, 1, 1⟩ ⟨⟨(2024, 1), 5⟩, 2, 2, 2, 2, 2⟩
    ⟨(2024, 1), 5⟩ (by decide) rfl rfl
    ⟨(2024, 1), 0⟩ ⟨(2024, 1), 10⟩ (by decide) (by decide)
    (by decide) (by decide)

theorem parquet_upsert_eq (s : BarStore) (dfNew : List BarRow) :
    parquet_upsert s dfNew =
      (groupKeys (normalizeColumns dfNew)).foldl
        (fun acc k =>
          (storeSet acc.1 k (combinedAt (normalizeColumns dfNew) acc.1 k),
           acc.2 + (combinedAt (normalizeColumns dfNew) acc.1 k).length))
        (s, 0) := rfl

theorem combinedAt_congr (dfn : List BarRow) {st st' : BarStore} {k : YM}
    (h : lookupPart st k = lookupPart st' k) :
    combinedAt dfn st k = combinedAt dfn st' k := by
  unfold combinedAt
  rw [h]

theorem combinedAt_some {dfn : List BarRow} {st : BarStore} {k : YM}
    {ex : List BarRow} (h : lookupPart st k = some ex) :
    combinedAt dfn st k =
      sortByDt (dedupKeepLast
        (ex ++ dfn.filter (fun r => decide (r.dt.ym = k)))) := by
  unfold combinedAt
  rw [h]

/-- Steps for other keys do not disturb the lookup at `k`. -/
theorem foldl_upsert_lookup_notmem (dfn : List BarRow) (keys : List YM)
    (acc : BarStore × Nat) {k : YM} (hk : k ∉ keys) :
    lookupPart
      ((keys.foldl
        (fun acc k' =>
          (storeSet acc.1 k' (combinedAt dfn acc.1 k'),
           acc.2 + (combinedAt dfn acc.1 k').length))
        acc).1) k = lookupPart acc.1 k := by
  induction keys generalizing acc with
  | nil => rfl
  | cons k0 rest ih =>
    simp only [List.foldl_cons]
    have hk0 : k ∉ rest := fun h => hk (List.mem_cons_of_mem _ h)
    rw [ih _ hk0]
    exact lookup_storeSet_other acc.1 _
      (fun he => hk (he ▸ List.mem_cons_self k0 rest))

/-- After the upsert fold, each processed key holds the content merged
against its pre-fold partition. -/
theorem foldl_upsert_lookup_mem (dfn : List BarRow) (keys : List YM)
    (acc : BarStore × Nat) {k : YM} (hnd : keys.Nodup) (hk : k ∈ keys) :
    lookupPart
      ((keys.foldl
        (fun acc k' =>
          (storeSet acc.1 k' (combinedAt dfn acc.1 k'),
           acc.2 + (combinedAt dfn acc.1 k').length))
        acc).1) k = some (combinedAt dfn acc.1 k) := by
  induction keys generalizing acc with
  | nil => cases hk
  | cons k0 rest ih =>
    rcases List.nodup_cons.mp hnd with ⟨hk0r, hrest⟩
    simp only [List.foldl_cons]
    by_cases he : k = k0
    · subst he
      rw [foldl_upsert_lookup_notmem dfn rest _ hk0r]
      exact lookup_storeSet_self acc.1 k _
    · have hkr : k ∈ rest := by
        rcases List.mem_cons.mp hk with h' | h'
        · exact absurd h' he
        · exact h'
      rw [ih _ hrest hkr]
      congr 1
      exact combinedAt_congr dfn
        (lookup_storeSet_other acc.1 _ (fun h' => he h'.symm))

/-- If every processed key already stores its merged content, the upsert
fold is the identity on the store. -/
theorem foldl_upsert_fixed (dfn : List BarRow) (keys : List YM)
    (st : BarStore) (n : Nat)
    (hfix : ∀ k ∈ keys, lookupPart st k = some (combinedAt dfn st k)) :
    ((keys.foldl
        (fun acc k' =>
          (storeSet acc.1 k' (combinedAt dfn acc.1 k'),
           acc.2 + (combinedAt dfn acc.1 k').length))
        (st, n)).1) = st := by
  induction keys generalizing n with
  | nil => rfl
  | cons k0 rest ih =>
    simp only [List.foldl_cons]
    have hset : storeSet st k0 (combinedAt dfn st k0) = st :=
      storeSet_of_lookup_eq (hfix k0 (List.mem_cons_self k0 rest))
    rw [hset]
    exact ih _ (fun k hk => hfix k (List.mem_cons_of_mem k0 hk))

/-- Incoming rows always survive the keep-last dedup of
`concat(existing, incoming)` when the incoming rows have distinct
timestamps. -/
theorem mem_dedup_append_right {ex part : List BarRow} {r : BarRow}
    (hpart : part.Pairwise (fun x y => x.dt ≠ y.dt)) (hr : r ∈ part) :
    r ∈ dedupKeepLast (ex ++ part) := by
  rw [mem_dedupKeepLast_iff, List.filter_append,
    filter_eq_singleton_of_pairwise_ne hpart hr, List.getLast?_append]
  rfl

/-- Merging a dataframe whose rows are already stored (with the stored
partition sorted and duplicate-free) rewrites the partition with exactly
its current content. -/
theorem merge_self {c part : List BarRow}
    (hsort : c.Pairwise (fun a b => dtLe a.dt b.dt))
    (hnd : c.Pairwise (fun x y => x.dt ≠ y.dt))
    (hsub : ∀ r ∈ part, r ∈ c) :
    sortByDt (dedupKeepLast (c ++ part)) = c := by
  have hmemiff : ∀ r, r ∈ dedupKeepLast (c ++ part) ↔ r ∈ c := by
    intro r
    constructor
    · intro hr
      rcases List.mem_append.mp (mem_of_mem_dedupKeepLast hr) with h' | h'
      · exact h'
      · exact hsub r h'
    · intro hr
      rw [mem_dedupKeepLast_iff, List.filter_append,
        filter_eq_singleton_of_pairwise_ne hnd hr]
      refine getLast?_of_all_eq ?_ ?_
      · simp
      · intro x hx
        rcases List.mem_append.mp hx with h' | h'
        · exact List.mem_singleton.mp h'
        · rcases List.mem_filter.mp h' with ⟨hx1, hx2⟩
          exact eq_of_mem_pairwise_ne hnd (hsub x hx1) hr
            (of_decide_eq_true hx2)
  have hperm : (dedupKeepLast (c ++ part)).Perm c := by
    rw [List.perm_ext_iff_of_nodup
      (nodup_of_pairwise_ne (dedupKeepLast_pairwise_ne _))
      (nodup_of_pairwise_ne hnd)]
    exact hmemiff
  have hperm2 : (sortByDt (dedupKeepLast (c ++ part))).Perm c :=
    (sortByDt_perm _).trans hperm
  refine List.Perm.eq_of_sorted ?_ (sortByDt_sorted _) hsort hperm2
  intro a b ha hb hab hba
  have hdt : a.dt = b.dt := dtLe_antisymm hab hba
  exact eq_of_mem_pairwise_ne hnd (hperm2.mem_iff.mp ha) hb hdt

/-- C2 (amended).  Idempotence of `upsert` for bar sets with pairwise
distinct timestamps: re-running `upsert(b)` leaves the whole store —
hence every touched partition file — exactly as after the first
`upsert(b)`, over any prior store state. -/
theorem C2_idempotence_amended (s : BarStore) (b : List BarRow)
    (hb : b.Pairwise (fun r r' => r.dt ≠ r'.dt)) :
    (parquet_upsert (parquet_upsert s b).1 b).1 = (parquet_upsert s b).1 := by
  rw [parquet_upsert_eq, parquet_upsert_eq]
  have hdfn_perm : (normalizeColumns b).Perm b := by
    unfold normalizeColumns
    by_cases hm : isMonotonicByDt b = true
    · rw [if_pos hm]
    · rw [if_neg hm]
      exact sortByDt_perm b
  have hdfn_ne : (normalizeColumns b).Pairwise (fun r r' => r.dt ≠ r'.dt) :=
    (List.Perm.pairwise_iff (fun h he => h he.symm) hdfn_perm).mpr hb
  have hdfn_sorted :
      (normalizeColumns b).Pairwise (fun a c => dtLe a.dt c.dt) := by
    unfold normalizeColumns
    by_cases hm : isMonotonicByDt b = true
    · rw [if_pos hm]
      exact pairwise_of_isMonotonic hm
    · rw [if_neg hm]
      exact sortByDt_sorted b
  apply foldl_upsert_fixed
  intro k hk
  have hs1 : lookupPart
      ((groupKeys (normalizeColumns b)).foldl
        (fun acc k' =>
          (storeSet acc.1 k' (combinedAt (normalizeColumns b) acc.1 k'),
           acc.2 + (combinedAt (normalizeColumns b) acc.1 k').length))
        (s, 0)).1 k = some (combinedAt (normalizeColumns b) s k) :=
    foldl_upsert_lookup_mem (normalizeColumns b) _ (s, 0)
      (groupKeys_nodup (normalizeColumns b)) hk
  have hpart_ne : ((normalizeColumns b).filter
      (fun r => decide (r.dt.ym = k))).Pairwise (fun r r' => r.dt ≠ r'.dt) :=
    List.Pairwise.sublist (List.filter_sublist _) hdfn_ne
  have hpart_sorted : ((normalizeColumns b).filter
      (fun r => decide (r.dt.ym = k))).Pairwise (fun a c => dtLe a.dt c.dt) :=
    List.Pairwise.sublist (List.filter_sublist _) hdfn_sorted
  have hc_sorted : (combinedAt (normalizeColumns b) s k).Pairwise
      (fun a c => dtLe a.dt c.dt) := by
    rcases hls : lookupPart s k with _ | ex
    · unfold combinedAt
      rw [hls]
      exact hpart_sorted
    · unfold combinedAt
      rw [hls]
      exact sortByDt_sorted _
  have hc_ne : (combinedAt (normalizeColumns b) s k).Pairwise
      (fun r r' => r.dt ≠ r'.dt) := by
    rcases hls : lookupPart s k with _ | ex
    · unfold combinedAt
      rw [hls]
      exact hpart_ne
    · unfold combinedAt
      rw [hls]
      exact (List.Perm.pairwise_iff (fun h he => h he.symm)
        (sortByDt_perm _)).mpr (dedupKeepLast_pairwise_ne _)
  have hc_sub : ∀ r ∈ (normalizeColumns b).filter
      (fun r => decide (r.dt.ym = k)), r ∈ combinedAt (normalizeColumns b) s k := by
    intro r hr
    rcases hls : lookupPart s k with _ | ex
    · unfold combinedAt
      rw [hls]
      exact hr
    · unfold combinedAt
      rw [hls]
      exact (sortByDt_perm _).mem_iff.mpr (mem_dedup_append_right hpart_ne hr)
  have hmerge : sortByDt (dedupKeepLast
      (combinedAt (normalizeColumns b) s k ++
        (normalizeColumns b).filter (fun r => decide (r.dt.ym = k)))) =
      combinedAt (normalizeColumns b) s k :=
    merge_self hc_sorted hc_ne hc_sub
  exact hs1.trans (congrArg some ((combinedAt_some hs1).trans hmerge).symm)

/-- C2 counterexample: a bar set carrying two bars with the same
timestamp, upserted into an empty store.  The first upsert writes the
fresh partition without dedup (two rows); the second upsert dedups it
down to one row, so the partition content differs. -/
theorem C2_idempotence_counterexample :
    lookupPart
        (parquet_upsert
          (parquet_upsert ([] : BarStore)
            [⟨⟨(2024, 1), 5⟩, 1, 1, 1, 1, 1⟩, ⟨⟨(2024, 1), 5⟩, 2, 2, 2, 2, 2⟩]).1
          [⟨⟨(2024, 1), 5⟩, 1, 1, 1, 1, 1⟩, ⟨⟨(2024, 1), 5⟩, 2, 2, 2, 2, 2⟩]).1
        (2024, 1) ≠
      lookupPart
        (parquet_upsert ([] : BarStore)
          [⟨⟨(2024, 1), 5⟩, 1, 1, 1, 1, 1⟩, ⟨⟨(2024, 1), 5⟩, 2, 2, 2, 2, 2⟩]).1
        (2024, 1) := by
  decide

/-- Witness for the amended C2 on a nonempty store and a two-row bar
set with distinct timestamps. -/
theorem C2_idempotence_amended_witness :
    (parquet_upsert
        (parquet_upsert
          [((2023, 12), [⟨⟨(2023, 12), 7⟩, 1, 1, 1, 1, 1⟩])]
          [⟨⟨(2024, 1), 5⟩, 1, 1, 1, 1, 1⟩, ⟨⟨(2024, 1), 9⟩, 2, 2, 2, 2, 2⟩]).1
        [⟨⟨(2024, 1), 5⟩, 1, 1, 1, 1, 1⟩, ⟨⟨(2024, 1), 9⟩, 2, 2, 2, 2, 2⟩]).1 =
      (parquet_upsert
        [((2023, 12), [⟨⟨(2023, 12), 7⟩, 1, 1, 1, 1, 1⟩])]
        [⟨⟨(2024, 1), 5⟩, 1, 1, 1, 1, 1⟩, ⟨⟨(2024, 1), 9⟩, 2, 2, 2, 2, 2⟩]).1 :=
  C2_idempotence_amended _ _ (by decide)

/-- C4.  Decoder gap-tolerance behavior as implemented: a zero-length
file and a failed decompression produce an empty tick dataframe without
raising, but a decompressed buffer whose length is not a multiple of the
20-byte record width makes `np.frombuffer` raise `ValueError`, which
`decode_hour_file` does not catch — contradicting both the spec and the
function's own "treat invalid files as missing data" comment. -/
theorem C4_decode_gap_behavior :
    (∀ origin : Int, decode_hour_file .emptyFile origin = .ok []) ∧
    (∀ origin : Int, decode_hour_file .corruptStream origin = .ok []) ∧
    decode_hour_file (.content (List.replicate 21 0)) 0 =
      .error .bufferSizeError :=
  ⟨fun _ => rfl, fun _ => rfl, rfl⟩

theorem foldl_min_le_init (a : ℚ) (l : List ℚ) : l.foldl min a ≤ a := by
  induction l generalizing a with
  | nil => exact le_refl a
  | cons x xs ih =>
    simp only [List.foldl_cons]
    exact le_trans (ih (min a x)) (min_le_left a x)

theorem foldl_min_le_mem (a : ℚ) (l : List ℚ) {y : ℚ} (hy : y ∈ l) :
    l.foldl min a ≤ y := by
  induction l generalizing a with
  | nil => cases hy
  | cons x xs ih =>
    simp only [List.foldl_cons]
    rcases List.mem_cons.mp hy with rfl | hy'
    · exact le_trans (foldl_min_le_init (min a y) xs) (min_le_right a y)
    · exact ih (min a x) hy'

theorem le_foldl_max_init (a : ℚ) (l : List ℚ) : a ≤ l.foldl max a := by
  induction l generalizing a with
  | nil => exact le_refl a
  | cons x xs ih =>
    simp only [List.foldl_cons]
    exact le_trans (le_max_left a x) (ih (max a x))

theorem le_foldl_max_mem (a : ℚ) (l : List ℚ) {y : ℚ} (hy : y ∈ l) :
    y ≤ l.foldl max a := by
  induction l generalizing a with
  | nil => cases hy
  | cons x xs ih =>
    simp only [List.foldl_cons]
    rcases List.mem_cons.mp hy with rfl | hy'
    · exact le_trans (le_max_right a y) (le_foldl_max_init (max a y) xs)
    · exact ih (max a x) hy'

theorem getLastD_mem {α : Type} (x : α) (xs : List α) :
    xs.getLastD x ∈ x :: xs := by
  induction xs generalizing x with
  | nil => simp
  | cons y ys ih =>
    rw [List.getLastD_cons]
    rcases List.mem_cons.mp (ih y) with h | h
    · rw [h]
      exact List.mem_cons_of_mem x (List.mem_cons_self y ys)
    · exact List.mem_cons_of_mem x (List.mem_cons_of_mem y h)

/-- Each run produced by `groupRuns` is nonempty, carries its own key,
and consists of rows of the input. -/
theorem groupRuns_spec {α : Type} (key : α → Int) (l : List α) :
    ∀ p ∈ groupRuns key l,
      p.2 ≠ [] ∧ (∀ x ∈ p.2, key x = p.1) ∧ (∀ x ∈ p.2, x ∈ l) := by
  induction l with
  | nil => intro p hp; cases hp
  | cons x xs ih =>
    intro p hp
    rcases hg : groupRuns key xs with _ | ⟨⟨k0, g0⟩, rest⟩
    · simp only [groupRuns, hg] at hp
      rcases List.mem_singleton.mp hp with rfl
      refine ⟨List.cons_ne_nil x [], ?_, ?_⟩
      · intro z hz
        rcases List.mem_singleton.mp hz with rfl
        rfl
      · intro z hz
        rcases List.mem_singleton.mp hz with rfl
        exact List.mem_cons_self z xs
    · simp only [groupRuns, hg] at hp
      by_cases hk : key x = k0
      · rw [if_pos hk] at hp
        rcases List.mem_cons.mp hp with rfl | hp'
        · have h0 := ih (k0, g0) (by rw [hg]; exact List.mem_cons_self _ _)
          refine ⟨List.cons_ne_nil x g0, ?_, ?_⟩
          · intro z hz
            rcases List.mem_cons.mp hz with rfl | hz'
            · rfl
            · exact (h0.2.1 z hz').trans hk.symm
          · intro z hz
            rcases List.mem_cons.mp hz with rfl | hz'
            · exact List.mem_cons_self z xs
            · exact List.mem_cons_of_mem x (h0.2.2 z hz')
        · have h0 := ih p (by rw [hg]; exact List.mem_cons_of_mem _ hp')
          exact ⟨h0.1, h0.2.1, fun z hz => List.mem_cons_of_mem x (h0.2.2 z hz)⟩
      · rw [if_neg hk] at hp
        rcases List.mem_cons.mp hp with rfl | hp'
        · refine ⟨List.cons_ne_nil x [], ?_, ?_⟩
          · intro z hz
            rcases List.mem_singleton.mp hz with rfl
            rfl
          · intro z hz
            rcases List.mem_singleton.mp hz with rfl
            exact List.mem_cons_self z xs
        · have h0 := ih p (by rw [hg]; exact hp')
          exact ⟨h0.1, h0.2.1, fun z hz => List.mem_cons_of_mem x (h0.2.2 z hz)⟩

/-- A floor-divided timestamp lies in its left-closed window. -/
theorem fdiv_window {t m k : Int} (hm : 0 < m) (h : Int.fdiv t m = k) :
    k * m ≤ t ∧ t < k * m + m := by
  rw [Int.fdiv_eq_ediv t (le_of_lt hm)] at h
  have hdm := Int.ediv_add_emod t m
  have hr0 : 0 ≤ t % m := Int.emod_nonneg t (ne_of_gt hm)
  have hrm : t % m < m := Int.emod_lt_of_pos t hm
  rw [h] at hdm
  have hmk : m * k = k * m := mul_comm m k
  constructor
  · linarith
  · linarith

/-- Bars built from a nonempty run of ticks satisfy the OHLC invariant. -/
theorem barOfRun_inv (windowMs k : Int) (x : TickRow) (xs : List TickRow) :
    mbarInv (barOfRun windowMs k (x :: xs)) := by
  have hclose : (xs.getLastD x).price = x.price ∨
      (xs.getLastD x).price ∈ xs.map (fun t => t.price) := by
    rcases List.mem_cons.mp (getLastD_mem x xs) with h | h
    · exact Or.inl (congrArg TickRow.price h)
    · exact Or.inr (List.mem_map_of_mem _ h)
  simp only [barOfRun, mbarInv]
  refine ⟨foldl_min_le_init _ _, ?_, le_foldl_max_init _ _, ?_⟩
  · rcases hclose with h | h
    · rw [h]
      exact foldl_min_le_init _ _
    · exact foldl_min_le_mem _ _ h
  · rcases hclose with h | h
    · rw [h]
      exact le_foldl_max_init _ _
    · exact le_foldl_max_mem _ _ h

/-- Bars built from a nonempty run of bars satisfying the invariant
satisfy it as well. -/
theorem barOfWindow_inv (windowMs k : Int) (x : MBar) (xs : List MBar)
    (hx : mbarInv x) (hxs : ∀ y ∈ xs, mbarInv y) :
    mbarInv (barOfWindow windowMs k (x :: xs)) := by
  have hlast := getLastD_mem x xs
  have hlastinv : mbarInv (xs.getLastD x) := by
    rcases List.mem_cons.mp hlast with h | h
    · rw [h]; exact hx
    · exact hxs _ h
  simp only [barOfWindow, mbarInv]
  refine ⟨?_, ?_, ?_, ?_⟩
  · exact le_trans (foldl_min_le_init _ _) hx.1
  · rcases List.mem_cons.mp hlast with h | h
    · have : (xs.getLastD x).close = x.close := by rw [h]
      rw [this]
      exact le_trans (foldl_min_le_init _ _) hx.2.1
    · exact le_trans (foldl_min_le_mem _ _ (List.mem_map_of_mem _ h))
        hlastinv.2.1
  · exact le_trans hx.2.2.1 (le_foldl_max_init _ _)
  · rcases List.mem_cons.mp hlast with h | h
    · have : (xs.getLastD x).close = x.close := by rw [h]
      rw [this]
      exact le_trans hx.2.2.2 (le_foldl_max_init _ _)
    · exact le_trans hlastinv.2.2.2
        (le_foldl_max_mem _ _ (List.mem_map_of_mem _ h))

/-- C7.  Bar OHLC invariant: every bar emitted by 1-minute aggregation
satisfies `low ≤ min(open, close)` and `high ≥ max(open, close)`
unconditionally, and every bar emitted by duration resampling does so
whenever its input 1-minute bars do (as validly aggregated bars); in
both cases every emitted bar's window contains at least one contributing
input row — a window with zero contributing ticks (respectively bars) is
never emitted. -/
theorem C7_bar_invariant :
    (∀ ticks : List TickRow, ∀ b ∈ aggregate_ticks_to_1m ticks,
      mbarInv b ∧
        ∃ t ∈ ticks, b.datetime ≤ t.datetime ∧
          t.datetime < b.datetime + 60000) ∧
    (∀ df : List MBar, ∀ tf : TFr, (∀ x ∈ df, mbarInv x) →
      ∀ b ∈ resample_from_1m df tf,
        mbarInv b ∧
          ∃ x ∈ df, b.datetime ≤ x.datetime ∧
            x.datetime < b.datetime + tfRuleMs tf) := by
  constructor
  · intro ticks b hb
    unfold aggregate_ticks_to_1m at hb
    rcases List.mem_map.mp hb with ⟨⟨k, g⟩, hg, hbar⟩
    have hspec := groupRuns_spec _ _ _ hg
    rcases hval : g with _ | ⟨x, xs⟩
    · exact absurd hval hspec.1
    · subst hval
      subst hbar
      have hsortedmem : ∀ z : TickRow,
          z ∈ (if isMonotonicTicks ticks then ticks
               else insSort tickLeB ticks) → z ∈ ticks := by
        intro z hz
        by_cases hm : isMonotonicTicks ticks = true
        · rw [if_pos hm] at hz
          exact hz
        · rw [if_neg hm] at hz
          exact (insSort_perm tickLeB ticks).mem_iff.mp hz
      refine ⟨barOfRun_inv _ _ _ _, x, hsortedmem x (hspec.2.2 x (List.mem_cons_self x xs)), ?_⟩
      have hkey : Int.fdiv x.datetime 60000 = k :=
        hspec.2.1 x (List.mem_cons_self x xs)
      have hw := fdiv_window (by norm_num) hkey
      simp only [barOfRun]
      exact ⟨hw.1, hw.2⟩
  · intro df tf hdf b hb
    cases tf with
    | m1 =>
      refine ⟨hdf b hb, b, hb, le_refl _, ?_⟩
      simp only [tfRuleMs]
      omega
    | m5 =>
      unfold resample_from_1m at hb
      rcases List.mem_map.mp hb with ⟨⟨k, g⟩, hg, hbar⟩
      have hspec := groupRuns_spec _ _ _ hg
      rcases hval : g with _ | ⟨x, xs⟩
      · exact absurd hval hspec.1
      · subst hval
        subst hbar
        refine ⟨barOfWindow_inv _ _ _ _
            (hdf x (hspec.2.2 x (List.mem_cons_self x xs)))
            (fun y hy => hdf y (hspec.2.2 y (List.mem_cons_of_mem x hy))),
          x, hspec.2.2 x (List.mem_cons_self x xs), ?_⟩
        have hkey : Int.fdiv x.datetime (tfRuleMs .m5) = k :=
          hspec.2.1 x (List.mem_cons_self x xs)
        have hw := fdiv_window (by simp [tfRuleMs]) hkey
        simp only [barOfWindow]
        exact ⟨hw.1, hw.2⟩
    | m15 =>
      unfold resample_from_1m at hb
      rcases List.mem_map.mp hb with ⟨⟨k, g⟩, hg, hbar⟩
      have hspec := groupRuns_spec _ _ _ hg
      rcases hval : g with _ | ⟨x, xs⟩
      · exact absurd hval hspec.1
      · subst hval
        subst hbar
        refine ⟨barOfWindow_inv _ _ _ _
            (hdf x (hspec.2.2 x (List.mem_cons_self x xs)))
            (fun y hy => hdf y (hspec.2.2 y (List.mem_cons_of_mem x hy))),
          x, hspec.2.2 x (List.mem_cons_self x xs), ?_⟩
        have hkey : Int.fdiv x.datetime (tfRuleMs .m15) = k :=
          hspec.2.1 x (List.mem_cons_self x xs)
        have hw := fdiv_window (by simp [tfRuleMs]) hkey
        simp only [barOfWindow]
        exact ⟨hw.1, hw.2⟩
    | m30 =>
      unfold resample_from_1m at hb
      rcases List.mem_map.mp hb with ⟨⟨k, g⟩, hg, hbar⟩
      have hspec := groupRuns_spec _ _ _ hg
      rcases hval : g with _ | ⟨x, xs⟩
      · exact absurd hval hspec.1
      · subst hval
        subst hbar
        refine ⟨barOfWindow_inv _ _ _ _
            (hdf x (hspec.2.2 x (List.mem_cons_self x xs)))
            (fun y hy => hdf y (hspec.2.2 y (List.mem_cons_of_mem x hy))),
          x, hspec.2.2 x (List.mem_cons_self x xs), ?_⟩
        have hkey : Int.fdiv x.datetime (tfRuleMs .m30) = k :=
          hspec.2.1 x (List.mem_cons_self x xs)
        have hw := fdiv_window (by simp [tfRuleMs]) hkey
        simp only [barOfWindow]
        exact ⟨hw.1, hw.2⟩
    | h1 =>
      unfold resample_from_1m at hb
      rcases List.mem_map.mp hb with ⟨⟨k, g⟩, hg, hbar⟩
      have hspec := groupRuns_spec _ _ _ hg
      rcases hval : g with _ | ⟨x, xs⟩
      · exact absurd hval hspec.1
      · subst hval
        subst hbar
        refine ⟨barOfWindow_inv _ _ _ _
            (hdf x (hspec.2.2 x (List.mem_cons_self x xs)))
            (fun y hy => hdf y (hspec.2.2 y (List.mem_cons_of_mem x hy))),
          x, hspec.2.2 x (List.mem_cons_self x xs), ?_⟩
        have hkey : Int.fdiv x.datetime (tfRuleMs .h1) = k :=
          hspec.2.1 x (List.mem_cons_self x xs)
        have hw := fdiv_window (by simp [tfRuleMs]) hkey
        simp only [barOfWindow]
        exact ⟨hw.1, hw.2⟩
    | h4 =>
      unfold resample_from_1m at hb
      rcases List.mem_map.mp hb with ⟨⟨k, g⟩, hg, hbar⟩
      have hspec := groupRuns_spec _ _ _ hg
      rcases hval : g with _ | ⟨x, xs⟩
      · exact absurd hval hspec.1
      · subst hval
        subst hbar
        refine ⟨barOfWindow_inv _ _ _ _
            (hdf x (hspec.2.2 x (List.mem_cons_self x xs)))
            (fun y hy => hdf y (hspec.2.2 y (List.mem_cons_of_mem x hy))),
          x, hspec.2.2 x (List.mem_cons_self x xs), ?_⟩
        have hkey : Int.fdiv x.datetime (tfRuleMs .h4) = k :=
          hspec.2.1 x (List.mem_cons_self x xs)
        have hw := fdiv_window (by simp [tfRuleMs]) hkey
        simp only [barOfWindow]
        exact ⟨hw.1, hw.2⟩
    | d1 =>
      unfold resample_from_1m at hb
      rcases List.mem_map.mp hb with ⟨⟨k, g⟩, hg, hbar⟩
      have hspec := groupRuns_spec _ _ _ hg
      rcases hval : g with _ | ⟨x, xs⟩
      · exact absurd hval hspec.1
      · subst hval
        subst hbar
        refine ⟨barOfWindow_inv _ _ _ _
            (hdf x (hspec.2.2 x (List.mem_cons_self x xs)))
            (fun y hy => hdf y (hspec.2.2 y (List.mem_cons_of_mem x hy))),
          x, hspec.2.2 x (List.mem_cons_self x xs), ?_⟩
        have hkey : Int.fdiv x.datetime (tfRuleMs .d1) = k :=
          hspec.2.1 x (List.mem_cons_self x xs)
        have hw := fdiv_window (by simp [tfRuleMs]) hkey
        simp only [barOfWindow]
        exact ⟨hw.1, hw.2⟩

/-- Witness for C7: a one-tick hour aggregates to one bar satisfying the
invariant, and a one-bar dataframe resampled to 5 minutes does too. -/
theorem C7_bar_invariant_witness :
    (mbarInv ⟨0, 1, 1, 1, 1, 1⟩ ∧
      ∃ t ∈ [(⟨0, 1, 1⟩ : TickRow)],
        (⟨0, 1, 1, 1, 1, 1⟩ : MBar).datetime ≤ t.datetime ∧
          t.datetime < (⟨0, 1, 1, 1, 1, 1⟩ : MBar).datetime + 60000) ∧
    (mbarInv ⟨0, 1, 1, 1, 1, 1⟩ ∧
      ∃ x ∈ [(⟨0, 1, 1, 1, 1, 1⟩ : MBar)],
        (⟨0, 1, 1, 1, 1, 1⟩ : MBar).datetime ≤ x.datetime ∧
          x.datetime < (⟨0, 1, 1, 1, 1, 1⟩ : MBar).datetime + tfRuleMs .m5) :=
  ⟨C7_bar_invariant.1 [⟨0, 1, 1⟩] ⟨0, 1, 1, 1, 1, 1⟩
     (by simp [aggregate_ticks_to_1m, isMonotonicTicks, groupRuns, barOfRun,
       Int.zero_fdiv]),
   C7_bar_invariant.2 [⟨0, 1, 1, 1, 1, 1⟩] .m5 (by decide)
     ⟨0, 1, 1, 1, 1, 1⟩
     (by simp [resample_from_1m, groupRuns, barOfWindow, tfRuleMs,
       Int.zero_fdiv])⟩

/-- C6.  Aggregation scenario: decoding the synthetic 60-byte hour
buffer holding three big-endian records — offsets 0 ms / 500 ms /
59999 ms, bid prices 1.10000 / 1.10050 / 1.09990 (raw 110000 / 110050 /
109990), bid volumes 1.0 / 2.0 / 1.5 (IEEE-754 single words) — at
origin 2024-01-08T10:00:00Z (epoch 1704708000000 ms) and aggregating to
1 minute yields exactly one bar: timestamp 2024-01-08T10:00:00Z,
open 1.10000, high 1.10050, low 1.09990, close 1.09990, volume 4.5. -/
theorem C6_aggregation_scenario :
    decode_hour_file
        (.content
          [0, 0, 0, 0, 0, 1, 173, 176, 0, 0, 0, 0, 63, 128, 0, 0, 0, 0, 0, 0,
           0, 0, 1, 244, 0, 1, 173, 226, 0, 0, 0, 0, 64, 0, 0, 0, 0, 0, 0, 0,
           0, 0, 234, 95, 0, 1, 173, 166, 0, 0, 0, 0, 63, 192, 0, 0, 0, 0, 0, 0])
        1704708000000 =
      .ok [⟨1704708000000, 11 / 10, 1⟩,
           ⟨1704708000500, 2201 / 2000, 2⟩,
           ⟨1704708059999, 10999 / 10000, 3 / 2⟩] ∧
    aggregate_ticks_to_1m
        [⟨1704708000000, 11 / 10, 1⟩,
         ⟨1704708000500, 2201 / 2000, 2⟩,
         ⟨1704708059999, 10999 / 10000, 3 / 2⟩] =
      [⟨1704708000000, 11 / 10, 2201 / 2000, 10999 / 10000, 10999 / 10000,
        9 / 2⟩] := by
  constructor
  · norm_num [decode_hour_file, words20, beU32, toI32, f32ToRat]
  · norm_num [aggregate_ticks_to_1m, isMonotonicTicks, groupRuns, barOfRun,
      Int.fdiv]

/-- C5 counterexample: a single 20-byte record whose second 32-bit word
is 110000, third word is 50, fourth word is IEEE-754 `1.0f` and fifth
word is `0.0f`.  The core decoder reads bid price `1.1` and bid volume
`1.0` (second and fourth fields per its `DTYPE`), while the export
path's dtype labels the same buffer `[TIME, ASKP, BIDP, ASKV, BIDV]` and
reports bid price `0.0005` and bid volume `0.0` (third and fifth
fields): the two decode paths disagree on the bid-price and bid-volume
sequences of the same buffer. -/
theorem C5_record_layout_counterexample :
    decode_hour_file
        (.content [0, 0, 0, 0, 0, 1, 173, 176, 0, 0, 0, 50,
                   63, 128, 0, 0, 0, 0, 0, 0]) 0 =
      .ok [⟨0, 11 / 10, 1⟩] ∧
    (export_decode [0, 0, 0, 0, 0, 1, 173, 176, 0, 0, 0, 50,
                    63, 128, 0, 0, 0, 0, 0, 0] 0).map (fun r => r.bidp) =
      [1 / 2000] ∧
    (export_decode [0, 0, 0, 0, 0, 1, 173, 176, 0, 0, 0, 50,
                    63, 128, 0, 0, 0, 0, 0, 0] 0).map (fun r => r.bidv) =
      [0] ∧
    ¬ (([⟨0, 11 / 10, 1⟩] : List TickRow).map (fun t => t.price) =
        [(1 / 2000 : ℚ)] ∧
       ([⟨0, 11 / 10, 1⟩] : List TickRow).map (fun t => t.volume) =
        [(0 : ℚ)]) := by
  refine ⟨?_, ?_, ?_, ?_⟩
  · norm_num [decode_hour_file, words20, beU32, toI32, f32ToRat]
  · norm_num [export_decode, words20, beU32, toI32, f32ToRat]
  · norm_num [export_decode, words20, beU32, toI32, f32ToRat]
  · intro h
    have := h.1
    norm_num at this

/-- C5 (amended).  The two decode paths parse the identical five-field
big-endian record layout but with transposed bid/ask labels: for every
decompressed buffer of whole records, the core decoder's price sequence
(its `bidp` field) equals the export decoder's `ASKP` sequence, its
volume sequence (`bidv`) equals the export `ASKV` sequence, and the
timestamps agree. -/
theorem C5_record_layout_amended (raw : List Nat) (origin : Int)
    (hlen : raw.length % 20 = 0) :
    ∃ ticks, decode_hour_file (.content raw) origin = .ok ticks ∧
      ticks.map (fun t => t.price) =
        (export_decode raw origin).map (fun r => r.askp) ∧
      ticks.map (fun t => t.volume) =
        (export_decode raw origin).map (fun r => r.askv) ∧
      ticks.map (fun t => t.datetime) =
        (export_decode raw origin).map (fun r => r.time) := by
  by_cases h0 : raw.length = 0
  · refine ⟨[], ?_, ?_, ?_, ?_⟩
    · simp [decode_hour_file, h0]
    · have : raw = [] := List.length_eq_zero.mp h0
      simp [this, export_decode, words20]
    · have : raw = [] := List.length_eq_zero.mp h0
      simp [this, export_decode, words20]
    · have : raw = [] := List.length_eq_zero.mp h0
      simp [this, export_decode, words20]
  · refine ⟨(words20 raw).map (fun w =>
        { datetime := origin + toI32 w.1,
          price := (toI32 w.2.1 : ℚ) / 100000,
          volume := f32ToRat w.2.2.2.1 }), ?_, ?_, ?_, ?_⟩
    · simp only [decode_hour_file]
      rw [if_neg h0, if_neg (by simp [hlen])]
    · simp [export_decode, List.map_map]
    · simp [export_decode, List.map_map]
    · simp [export_decode, List.map_map]

/-- Witness for the amended C5 at the concrete one-record buffer of the
counterexample. -/
theorem C5_record_layout_amended_witness :
    ∃ ticks, decode_hour_file
        (.content [0, 0, 0, 0, 0, 1, 173, 176, 0, 0, 0, 50,
                   63, 128, 0, 0, 0, 0, 0, 0]) 0 = .ok ticks ∧
      ticks.map (fun t => t.price) =
        (export_decode [0, 0, 0, 0, 0, 1, 173, 176, 0, 0, 0, 50,
                        63, 128, 0, 0, 0, 0, 0, 0] 0).map (fun r => r.askp) ∧
      ticks.map (fun t => t.volume) =
        (export_decode [0, 0, 0, 0, 0, 1, 173, 176, 0, 0, 0, 50,
                        63, 128, 0, 0, 0, 0, 0, 0] 0).map (fun r => r.askv) ∧
      ticks.map (fun t => t.datetime) =
        (export_decode [0, 0, 0, 0, 0, 1, 173, 176, 0, 0, 0, 50,
                        63, 128, 0, 0, 0, 0, 0, 0] 0).map (fun r => r.time) :=
  C5_record_layout_amended _ 0 (by decide)

theorem chunksOfAux_nil {α : Type} (n fuel : Nat) :
    chunksOfAux n fuel ([] : List α) = [] := by
  cases fuel <;> rfl

theorem chunksOfAux_flatten {α : Type} (n : Nat) (_hn : 1 ≤ n) :
    ∀ fuel (l : List α), l.length ≤ fuel →
      (chunksOfAux n fuel l).flatten = l := by
  intro fuel
  induction fuel with
  | zero =>
    intro l hl
    rcases List.length_eq_zero.mp (Nat.le_zero.mp hl) with rfl
    rfl
  | succ f ih =>
    intro l hl
    cases l with
    | nil => rfl
    | cons x xs =>
      simp only [chunksOfAux, List.flatten_cons]
      rw [ih (xs.drop (n - 1)) ?_]
      · rw [List.cons_append, List.take_append_drop]
      · rw [List.length_drop]
        simp only [List.length_cons] at hl
        omega

theorem chunksOfAux_mem {α : Type} (n : Nat) (hn : 1 ≤ n) :
    ∀ fuel (l : List α), l.length ≤ fuel →
      ∀ g ∈ chunksOfAux n fuel l, g ≠ [] ∧ g.length ≤ n := by
  intro fuel
  induction fuel with
  | zero =>
    intro l hl g hg
    rcases List.length_eq_zero.mp (Nat.le_zero.mp hl) with rfl
    cases hg
  | succ f ih =>
    intro l hl g hg
    cases l with
    | nil => cases hg
    | cons x xs =>
      simp only [chunksOfAux] at hg
      rcases List.mem_cons.mp hg with rfl | hg'
      · refine ⟨List.cons_ne_nil _ _, ?_⟩
        simp only [List.length_cons, List.length_take]
        omega
      · refine ih (xs.drop (n - 1)) ?_ g hg'
        rw [List.length_drop]
        simp only [List.length_cons] at hl
        omega

theorem chunksOfAux_dropLast {α : Type} (n : Nat) (hn : 1 ≤ n) :
    ∀ fuel (l : List α), l.length ≤ fuel →
      ∀ g ∈ (chunksOfAux n fuel l).dropLast, g.length = n := by
  intro fuel
  induction fuel with
  | zero =>
    intro l hl g hg
    rcases List.length_eq_zero.mp (Nat.le_zero.mp hl) with rfl
    cases hg
  | succ f ih =>
    intro l hl g hg
    cases l with
    | nil => cases hg
    | cons x xs =>
      simp only [chunksOfAux] at hg
      rcases hrest : chunksOfAux n f (xs.drop (n - 1)) with _ | ⟨r, rs⟩
      · rw [hrest] at hg
        cases hg
      · rw [hrest] at hg
        rw [List.dropLast_cons_of_ne_nil (List.cons_ne_nil r rs)] at hg
        rcases List.mem_cons.mp hg with rfl | hg'
        · have hdropne : xs.drop (n - 1) ≠ [] := by
            intro hd
            rw [hd, chunksOfAux_nil] at hrest
            cases hrest
          have hlen : n - 1 < xs.length := by
            by_contra hc
            push_neg at hc
            exact hdropne (List.drop_eq_nil_of_le hc)
          simp only [List.length_cons, List.length_take]
          omega
        · refine ih (xs.drop (n - 1)) ?_ g ?_
          · rw [List.length_drop]
            simp only [List.length_cons] at hl
            omega
          · rw [hrest]
            exact hg'

theorem foldl_max_memQ (a : ℚ) (l : List ℚ) : l.foldl max a ∈ a :: l := by
  induction l generalizing a with
  | nil => exact List.mem_singleton_self a
  | cons x xs ih =>
    simp only [List.foldl_cons]
    rcases List.mem_cons.mp (ih (max a x)) with h | h
    · rcases max_choice a x with h' | h'
      · rw [h, h']
        exact List.mem_cons_self a (x :: xs)
      · rw [h, h']
        exact List.mem_cons_of_mem a (List.mem_cons_self x xs)
    · exact List.mem_cons_of_mem a (List.mem_cons_of_mem x h)

theorem foldl_min_memQ (a : ℚ) (l : List ℚ) : l.foldl min a ∈ a :: l := by
  induction l generalizing a with
  | nil => exact List.mem_singleton_self a
  | cons x xs ih =>
    simp only [List.foldl_cons]
    rcases List.mem_cons.mp (ih (min a x)) with h | h
    · rcases min_choice a x with h' | h'
      · rw [h, h']
        exact List.mem_cons_self a (x :: xs)
      · rw [h, h']
        exact List.mem_cons_of_mem a (List.mem_cons_self x xs)
    · exact List.mem_cons_of_mem a (List.mem_cons_of_mem x h)

theorem getLast?_cons_getLastD {α : Type} (x : α) (xs : List α) :
    (x :: xs).getLast? = some (xs.getLastD x) := by
  induction xs generalizing x with
  | nil => rfl
  | cons y ys ih =>
    rw [List.getLast?_cons_cons, ih y, List.getLastD_cons]

/-- C10.  Tick-count bar grouping: `N = 1` is a pass-through identity
returning the tick dataframe unchanged; for `N ≥ 2` the rows are
partitioned into consecutive groups of `N` with the trailing partial
group (fewer than `N` rows) still emitted as a bar, and each bar takes
`date`/`open` from its group's first row, `close` from its last row,
`high`/`low` as the max/min bid price, and `vol` as the bid-volume
sum. -/
theorem C10_tick_count_grouping (n : Nat) (df : List XRow) (hn : 1 ≤ n) :
    (n = 1 → aggregate_data_ticks n df = .raw df) ∧
    (2 ≤ n →
      aggregate_data_ticks n df = .bars ((chunksOf n df).map xbarOfGroup) ∧
      (chunksOf n df).flatten = df ∧
      (∀ g ∈ chunksOf n df, g ≠ [] ∧ g.length ≤ n) ∧
      (∀ g ∈ (chunksOf n df).dropLast, g.length = n) ∧
      (∀ g ∈ chunksOf n df,
        (g.map (fun r => r.time)).head? = some (xbarOfGroup g).date ∧
        (g.map (fun r => r.bidp)).head? = some (xbarOfGroup g).opn ∧
        (g.map (fun r => r.bidp)).getLast? = some (xbarOfGroup g).close ∧
        (xbarOfGroup g).high ∈ g.map (fun r => r.bidp) ∧
        (∀ p ∈ g.map (fun r => r.bidp), p ≤ (xbarOfGroup g).high) ∧
        (xbarOfGroup g).low ∈ g.map (fun r => r.bidp) ∧
        (∀ p ∈ g.map (fun r => r.bidp), (xbarOfGroup g).low ≤ p) ∧
        (xbarOfGroup g).vol = (g.map (fun r => r.bidv)).sum)) := by
  constructor
  · intro h1
    unfold aggregate_data_ticks
    rw [if_pos h1]
  · intro h2
    refine ⟨?_, ?_, ?_, ?_, ?_⟩
    · unfold aggregate_data_ticks
      rw [if_neg (by omega)]
    · exact chunksOfAux_flatten n hn df.length df (le_refl _)
    · exact chunksOfAux_mem n hn df.length df (le_refl _)
    · exact chunksOfAux_dropLast n hn df.length df (le_refl _)
    · intro g hg
      have hne := (chunksOfAux_mem n hn df.length df (le_refl _) g hg).1
      rcases hval : g with _ | ⟨x, xs⟩
      · exact absurd hval hne
      · subst hval
        simp only [xbarOfGroup]
        refine ⟨rfl, rfl, ?_, ?_, ?_, ?_, ?_, ?_⟩
        · rw [List.getLast?_map, getLast?_cons_getLastD]
          rfl
        · exact foldl_max_memQ x.bidp (xs.map (fun r => r.bidp))
        · intro p hp
          rcases List.mem_cons.mp hp with rfl | hp'
          · exact le_foldl_max_init _ _
          · exact le_foldl_max_mem _ _ hp'
        · exact foldl_min_memQ x.bidp (xs.map (fun r => r.bidp))
        · intro p hp
          rcases List.mem_cons.mp hp with rfl | hp'
          · exact foldl_min_le_init _ _
          · exact foldl_min_le_mem _ _ hp'
        · rw [List.map_cons, List.sum_cons]

/-- Witness for C10: `N = 1` passes a two-row dataframe through, and
`N = 2` on a three-row dataframe emits two bars, the trailing one from a
single row. -/
theorem C10_tick_count_grouping_witness :
    (aggregate_data_ticks 1 [⟨0, 1, 2, 3, 4⟩, ⟨5, 6, 7, 8, 9⟩] =
      .raw [⟨0, 1, 2, 3, 4⟩, ⟨5, 6, 7, 8, 9⟩]) ∧
    ((chunksOf 2 [(⟨0, 1, 2, 3, 4⟩ : XRow), ⟨5, 6, 7, 8, 9⟩,
        ⟨10, 11, 12, 13, 14⟩]).flatten =
      [⟨0, 1, 2, 3, 4⟩, ⟨5, 6, 7, 8, 9⟩, ⟨10, 11, 12, 13, 14⟩]) :=
  ⟨(C10_tick_count_grouping 1 [⟨0, 1, 2, 3, 4⟩, ⟨5, 6, 7, 8, 9⟩]
      (by decide)).1 rfl,
   ((C10_tick_count_grouping 2
      [⟨0, 1, 2, 3, 4⟩, ⟨5, 6, 7, 8, 9⟩, ⟨10, 11, 12, 13, 14⟩]
      (by decide)).2 (by decide)).2.1⟩
